import Mathlib

/-!
# Verification of papyr-core graph construction and analytics

A shallow embedding of the graph subsystem of papyr-core
(`src/graph.ts`, `src/analytics.ts`, `src/graphAnalysis.ts`).

JavaScript `Map`s are modelled as association lists with unique keys
(`mapSet` overwrites in place, preserving insertion order, exactly as a JS
`Map` does); JavaScript `Set`s are modelled as duplicate-free lists in
insertion order (`setAdd` appends only when absent, as `Set.add` does).
-/

set_option maxHeartbeats 1000000

namespace Papyr

/-! ## JS Map / Set primitives -/

/-- `Map.has k` on an association list. -/
def mapHas {β : Type} : List (String × β) → String → Bool
  | [], _ => false
  | p :: m, k => p.1 = k || mapHas m k

/-- `Map.get k` on an association list (first entry wins; entries are unique
by construction, as in a JS `Map`). -/
def mapGet {β : Type} : List (String × β) → String → Option β
  | [], _ => none
  | p :: m, k => if p.1 = k then some p.2 else mapGet m k

/-- `Map.set k v`: overwrite in place when the key exists (keeping insertion
order, as a JS `Map` does), otherwise append. -/
def mapSet {β : Type} : List (String × β) → String → β → List (String × β)
  | [], k, v => [(k, v)]
  | p :: m, k, v => if p.1 = k then (k, v) :: m else p :: mapSet m k v

/-- `Map.delete k`. -/
def mapDelete {β : Type} (m : List (String × β)) (k : String) :
    List (String × β) :=
  m.filter (fun p => ¬ p.1 = k)

/-- `adjacency.get(u) ?? []` / `adjacency.get(u) || new Set()`. -/
def adjGet (adj : List (String × List String)) (u : String) : List String :=
  (mapGet adj u).getD []

/-- `Set.add x`: append only when absent (JS `Set` keeps insertion order). -/
def setAdd (s : List String) (x : String) : List String :=
  if x ∈ s then s else s ++ [x]

/-- Keys of an association list. -/
def keys {β : Type} (m : List (String × β)) : List String := m.map Prod.fst

/-! ## Data model (`src/types.ts`) -/

/-- The slice of `ParsedNote` that graph construction reads: the slug,
the optional `metadata.title`, and the outbound link targets. -/
structure ParsedNote where
  slug : String
  title : Option String
  linksTo : List String
deriving Repr, DecidableEq

structure GraphNode where
  id : String
  label : String
  linkCount : Nat
  backlinkCount : Nat
  forwardLinkCount : Nat
deriving Repr, DecidableEq

structure GraphLink where
  source : String
  target : String
deriving Repr, DecidableEq

structure NoteGraph where
  nodes : List (String × GraphNode)
  edges : List GraphLink
  backlinks : List (String × List String)
  orphans : List String
deriving Repr, DecidableEq

structure GraphOptions where
  includeOrphans : Bool := true
  bidirectional : Bool := false
  minimumConnections : Nat := 0
deriving Repr, DecidableEq

/-! ## `buildNoteGraph` (`src/graph.ts`), staged exactly as the source -/

/-- The `noteMap` lookup built in the preamble of `buildNoteGraph`. -/
def noteMap (notes : List ParsedNote) : List (String × ParsedNote) :=
  notes.foldl (fun m note => mapSet m note.slug note) []

/-- `backlinks` initialisation: every note slug mapped to an empty set. -/
def backlinksInit (notes : List ParsedNote) : List (String × List String) :=
  notes.foldl (fun m note => mapSet m note.slug ([] : List String)) []

/-- First pass of `buildNoteGraph`: create nodes, `forwardLinkCount`
initialised to the raw outbound-link count `note.linksTo.length`. -/
def initialNodes (notes : List ParsedNote) : List (String × GraphNode) :=
  notes.foldl
    (fun m note =>
      mapSet m note.slug
        { id := note.slug
          label := note.title.getD note.slug
          linkCount := 0
          backlinkCount := 0
          forwardLinkCount := note.linksTo.length })
    []

/-- `backlinks.get(k)!.add(v)` — only touches an existing entry, like the JS
non-null assertion (the key is always present when this is reached). -/
def blAdd (bl : List (String × List String)) (k v : String) :
    List (String × List String) :=
  match mapGet bl k with
  | some s => mapSet bl k (setAdd s v)
  | none => bl

/-- Second pass of `buildNoteGraph`: build edges and backlinks.  Only links
whose target exists in `noteMap` create an edge; in bidirectional mode a
reverse edge is appended for non-self links. -/
def addEdgesPass (notes : List ParsedNote) (nm : List (String × ParsedNote))
    (bidirectional : Bool)
    (init : List GraphLink × List (String × List String)) :
    List GraphLink × List (String × List String) :=
  notes.foldl
    (fun st sourceNote =>
      sourceNote.linksTo.foldl
        (fun st targetSlug =>
          if mapHas nm targetSlug then
            let edges := st.1 ++ [⟨sourceNote.slug, targetSlug⟩]
            let bl := blAdd st.2 targetSlug sourceNote.slug
            if bidirectional ∧ sourceNote.slug ≠ targetSlug then
              (edges ++ [⟨targetSlug, sourceNote.slug⟩],
               blAdd bl sourceNote.slug targetSlug)
            else (edges, bl)
          else st)
        st)
    init

/-- Third pass of `buildNoteGraph`: recompute `backlinkCount` from the
backlink sets and `linkCount = forward + back`. -/
def updateCounts (bl : List (String × List String))
    (nodes : List (String × GraphNode)) : List (String × GraphNode) :=
  nodes.map
    (fun p =>
      let backlinkSet := (mapGet bl p.1).getD []
      (p.1, { p.2 with
                backlinkCount := backlinkSet.length
                linkCount := p.2.forwardLinkCount + backlinkSet.length }))

/-- Slugs of nodes with `linkCount == 0`, in node-map order. -/
def orphansOf (nodes : List (String × GraphNode)) : List String :=
  (nodes.filter (fun p => p.2.linkCount = 0)).map (·.1)

/-- `nodesToRemove.forEach(slug => nodes.delete(slug))`. -/
def removeNodes (nodes : List (String × GraphNode)) (slugs : List String) :
    List (String × GraphNode) :=
  slugs.foldl mapDelete nodes

/-- Rebuild the backlinks map from the filtered edge list. -/
def rebuildBacklinks (nodes : List (String × GraphNode))
    (es : List GraphLink) : List (String × List String) :=
  es.foldl (fun bl e => blAdd bl e.target e.source)
    (nodes.map (fun p => (p.1, ([] : List String))))

/-- One edge of the recount loop of `buildNoteGraph`: increment the
source's `forwardLinkCount` and the target's `backlinkCount` when each is
present (`nodes.get(edge.source)` / `nodes.get(edge.target)` guards). -/
def applyEdgeCounts (m : List (String × GraphNode)) (e : GraphLink) :
    List (String × GraphNode) :=
  let m := match mapGet m e.source with
    | some n =>
        mapSet m e.source { n with forwardLinkCount := n.forwardLinkCount + 1 }
    | none => m
  match mapGet m e.target with
    | some n =>
        mapSet m e.target { n with backlinkCount := n.backlinkCount + 1 }
    | none => m

/-- Recompute `forwardLinkCount` / `backlinkCount` / `linkCount` strictly
from the filtered edge list (zero everything, then one increment per edge
endpoint, then `linkCount = forward + back`). -/
def recomputeFromEdges (nodes : List (String × GraphNode))
    (es : List GraphLink) : List (String × GraphNode) :=
  let zeroed := nodes.map
    (fun p => (p.1, { p.2 with
                        forwardLinkCount := 0
                        backlinkCount := 0
                        linkCount := 0 }))
  let counted := es.foldl applyEdgeCounts zeroed
  counted.map
    (fun p => (p.1, { p.2 with
                        linkCount := p.2.forwardLinkCount + p.2.backlinkCount }))

/-- The edges and populated backlink sets after the second pass. -/
def stageEdges (notes : List ParsedNote) (opts : GraphOptions) :
    List GraphLink × List (String × List String) :=
  addEdgesPass notes (noteMap notes) opts.bidirectional ([], backlinksInit notes)

/-- The node map right after the third pass — the pre-removal link counts
(`forwardLinkCount` still the raw outbound count, `backlinkCount` the
deduplicated backlink-set size). -/
def stagePreNodes (notes : List ParsedNote) (opts : GraphOptions) :
    List (String × GraphNode) :=
  updateCounts (stageEdges notes opts).2 (initialNodes notes)

/-- The node map after the `minimumConnections` and orphan removals. -/
def stageKeptNodes (notes : List ParsedNote) (opts : GraphOptions) :
    List (String × GraphNode) :=
  let nodes2 := stagePreNodes notes opts
  let orphans1 := orphansOf nodes2
  let toRemove :=
    (nodes2.filter (fun p => p.2.linkCount < opts.minimumConnections)).map (·.1)
  let nodes3 := removeNodes nodes2 toRemove
  if opts.includeOrphans then nodes3 else removeNodes nodes3 orphans1

/-- `buildNoteGraph` (`src/graph.ts`). -/
def buildNoteGraph (notes : List ParsedNote)
    (options : GraphOptions := {}) : NoteGraph :=
  let nodes4 := stageKeptNodes notes options
  let filteredEdges :=
    (stageEdges notes options).1.filter
      (fun e => mapHas nodes4 e.source && mapHas nodes4 e.target)
  let finalNodes := recomputeFromEdges nodes4 filteredEdges
  { nodes := finalNodes
    edges := filteredEdges
    backlinks := rebuildBacklinks nodes4 filteredEdges
    orphans := orphansOf finalNodes }

/-- `getBacklinks` (`src/graph.ts`): `Array.from` of the stored set. -/
def getBacklinks (slug : String) (graph : NoteGraph) : List String :=
  (mapGet graph.backlinks slug).getD []

/-! ## `findShortestPath` (`src/graph.ts`) -/

/-- One edge of the adjacency-building loop of `findShortestPath`:
`if (!adjacency.has(edge.source)) adjacency.set(edge.source, new Set());
adjacency.get(edge.source)!.add(edge.target)`. -/
def addAdjacencyEdge (adjacency : List (String × List String))
    (e : GraphLink) : List (String × List String) :=
  let adjacency :=
    if mapHas adjacency e.source then adjacency
    else mapSet adjacency e.source ([] : List String)
  match mapGet adjacency e.source with
  | some s => mapSet adjacency e.source (setAdd s e.target)
  | none => adjacency

/-- The adjacency map built at the top of `findShortestPath`: per source a
set of targets. -/
def buildAdjacency (edges : List GraphLink) : List (String × List String) :=
  edges.foldl addAdjacencyEdge []

/-- The mutable BFS state of `findShortestPath`. -/
structure BFSState where
  queue : List String
  visited : List String
  parent : List (String × String)
deriving Repr, DecidableEq

/-- The `for (const neighbor of neighbors)` body of the BFS loop:
unvisited neighbours are marked visited, given a parent pointer, and
enqueued. -/
def processNeighbors (current : String) (neighbors : List String)
    (st : BFSState) : BFSState :=
  neighbors.foldl
    (fun st neighbor =>
      if neighbor ∈ st.visited then st
      else
        { queue := st.queue ++ [neighbor]
          visited := st.visited ++ [neighbor]
          parent := mapSet st.parent neighbor current })
    st

/-- Path reconstruction via parent pointers (`while (node !== undefined)
{ path.unshift(node); node = parent.get(node) }`).  The fuel passed by
`bfsLoop` is `parent.length`, an upper bound on any parent chain. -/
def reconstructPath (parent : List (String × String)) :
    Nat → String → List String → List String
  | 0, node, path => node :: path
  | fuel + 1, node, path =>
      match mapGet parent node with
      | none => node :: path
      | some par => reconstructPath parent fuel par (node :: path)

/-- The `while (queue.length > 0)` loop of `findShortestPath`.  The fuel
chosen by `findShortestPath` exceeds the greatest possible number of
iterations, so the 0-fuel branch is never taken. -/
def bfsLoop (adj : List (String × List String)) (targetSlug : String) :
    Nat → BFSState → Option (List String)
  | 0, _ => none
  | fuel + 1, st =>
      match st.queue with
      | [] => none
      | current :: rest =>
          if current = targetSlug then
            some (reconstructPath st.parent st.parent.length targetSlug [])
          else
            bfsLoop adj targetSlug fuel
              (processNeighbors current (adjGet adj current)
                { st with queue := rest })

/-- `findShortestPath` (`src/graph.ts`): BFS over the directed adjacency
built from `edges`. -/
def findShortestPath (sourceSlug targetSlug : String) (graph : NoteGraph) :
    Option (List String) :=
  if !(mapHas graph.nodes sourceSlug) || !(mapHas graph.nodes targetSlug) then
    none
  else if sourceSlug = targetSlug then some [sourceSlug]
  else
    let adjacency := buildAdjacency graph.edges
    bfsLoop adjacency targetSlug (graph.edges.length + 2)
      { queue := [sourceSlug], visited := [sourceSlug], parent := [] }

/-! ## `getGraphStatistics` (`src/graphAnalysis.ts`), the slice the claims
use -/

/-- The `totalConnections` accumulator of `getGraphStatistics`:
`graph.nodes.forEach(node => totalConnections += node.linkCount)`. -/
def totalConnections (graph : NoteGraph) : Nat :=
  graph.nodes.foldl (fun acc p => acc + p.2.linkCount) 0

/-- The `averageConnections` field of `getGraphStatistics`:
`nodeCount > 0 ? totalConnections / nodeCount : 0` (JS numbers modelled as
rationals). -/
def averageConnections (graph : NoteGraph) : ℚ :=
  if 0 < graph.nodes.length then
    (totalConnections graph : ℚ) / (graph.nodes.length : ℚ)
  else 0

/-! ## `AnalyticsEngine` (`src/analytics.ts`), the slice the claims use -/

/-- One edge of `buildDirectedAdjacency`:
`const list = adjacency.get(edge.source); if (list) list.push(edge.target)`. -/
def addDirectedEdge (adj : List (String × List String)) (e : GraphLink) :
    List (String × List String) :=
  match mapGet adj e.source with
  | some list => mapSet adj e.source (list ++ [e.target])
  | none => adj

/-- `buildDirectedAdjacency`: every node id mapped to `[]`, then each edge
appends its target to its source's list (edges with an absent source are
skipped; targets are not checked). -/
def buildDirectedAdjacency (graph : NoteGraph) :
    List (String × List String) :=
  let adjacency :=
    graph.nodes.foldl (fun adj p => mapSet adj p.1 ([] : List String)) []
  graph.edges.foldl addDirectedEdge adjacency

/-- The mutable state of `findStronglyConnectedComponents`. -/
structure TarjanState where
  indexMap : List (String × Nat)
  lowLink : List (String × Nat)
  onStack : List String
  stack : List String
  components : List (List String)
  index : Nat
deriving Repr, DecidableEq

/-- The `do { current = stack.pop(); onStack.delete(current);
component.push(current) } while (current !== nodeId)` loop.  The fuel is
the stack length at entry, which the loop can never exceed. -/
def popLoop (nodeId : String) :
    Nat → List String → List String → List String × List String
  | 0, stack, comp => (stack, comp)
  | fuel + 1, stack, comp =>
      match stack.getLast? with
      | none => (stack, comp)
      | some current =>
          let stack' := stack.dropLast
          let comp' := comp ++ [current]
          if current = nodeId then (stack', comp')
          else popLoop nodeId fuel stack' comp'

/-- The body of the `neighbors.forEach` inside Tarjan's `visit`
(`visitFn` is the recursive call at the remaining fuel). -/
def tarjanStep (visitFn : TarjanState → String → TarjanState)
    (nodeId : String) (s : TarjanState) (neighbor : String) : TarjanState :=
  if mapHas s.indexMap neighbor = false then
    let s' := visitFn s neighbor
    { s' with
        lowLink := mapSet s'.lowLink nodeId
          (min ((mapGet s'.lowLink nodeId).getD 0)
            ((mapGet s'.lowLink neighbor).getD 0)) }
  else if neighbor ∈ s.onStack then
    { s with
        lowLink := mapSet s.lowLink nodeId
          (min ((mapGet s.lowLink nodeId).getD 0)
            ((mapGet s.indexMap neighbor).getD 0)) }
  else s

/-- The recursive `visit` of `findStronglyConnectedComponents` (Tarjan),
with fuel standing in for the call stack; the fuel chosen by
`findStronglyConnectedComponents` is an upper bound on the recursion
depth, so the 0-fuel branch is never taken. -/
def visit (adj : List (String × List String)) :
    Nat → TarjanState → String → TarjanState
  | 0, st, _ => st
  | fuel + 1, st, nodeId =>
    let st1 : TarjanState :=
      { st with
          indexMap := mapSet st.indexMap nodeId st.index
          lowLink := mapSet st.lowLink nodeId st.index
          index := st.index + 1
          stack := st.stack ++ [nodeId]
          onStack := setAdd st.onStack nodeId }
    let st2 := (adjGet adj nodeId).foldl
      (tarjanStep (visit adj fuel) nodeId) st1
    if mapGet st2.lowLink nodeId = mapGet st2.indexMap nodeId then
      let popped := popLoop nodeId st2.stack.length st2.stack []
      { st2 with
          stack := popped.1
          onStack := st2.onStack.filter (fun x => ¬ x ∈ popped.2)
          components := st2.components ++ [popped.2] }
    else st2

/-- One entry of the outer `graph.nodes.forEach` of
`findStronglyConnectedComponents`: start a `visit` at every
not-yet-indexed node id. -/
def sccOuterStep (adj : List (String × List String)) (fuel : ℕ)
    (st : TarjanState) (p : String × GraphNode) : TarjanState :=
  if mapHas st.indexMap p.1 = false then visit adj fuel st p.1 else st

/-- `findStronglyConnectedComponents` (`src/analytics.ts`): Tarjan over the
directed adjacency. -/
def findStronglyConnectedComponents (graph : NoteGraph) :
    List (List String) :=
  let adjacency := buildDirectedAdjacency graph
  (graph.nodes.foldl
    (sccOuterStep adjacency (graph.nodes.length + graph.edges.length + 1))
    ⟨[], [], [], [], [], 0⟩).components

/-- The `connectedComponents` field of `calculateGraphAnalytics`:
the number of strongly connected components. -/
def connectedComponents (graph : NoteGraph) : Nat :=
  (findStronglyConnectedComponents graph).length

structure Cluster where
  id : String
  members : List String
  density : ℚ
deriving Repr, DecidableEq

/-- The `internalEdges` reduce of `findClusters`: edges with both endpoints
inside the component. -/
def internalEdgesCount (es : List GraphLink) (memberSet : List String) :
    Nat :=
  es.foldl
    (fun count e =>
      if e.source ∈ memberSet ∧ e.target ∈ memberSet then count + 1
      else count)
    0

/-- Stable insertion used to model the JS stable `Array.prototype.sort`:
an element moves past `y` only while `le y x` holds, so equal elements
keep their original order. -/
def insertSorted {α : Type} (le : α → α → Bool) (x : α) :
    List α → List α
  | [] => [x]
  | y :: ys => if le y x then y :: insertSorted le x ys else x :: y :: ys

/-- Stable sort (insertion sort) modelling `Array.prototype.sort`, which
ECMAScript requires to be stable. -/
def sortBy {α : Type} (le : α → α → Bool) (l : List α) : List α :=
  l.foldr (insertSorted le) []

/-- `findClusters` (`src/analytics.ts`): keep components with 3+ nodes,
attach internal-edge density, sort descending by density (stable, as the
JS comparator `b.density - a.density` does), keep the top 5. -/
def findClusters (graph : NoteGraph) (components : List (List String)) :
    List Cluster :=
  let qual := components.filter (fun component => 2 < component.length)
  let mapped := qual.enum.map
    (fun p =>
      let component := p.2
      let memberSet := component
      let internalEdges := internalEdgesCount graph.edges memberSet
      let maxPossibleEdges := component.length * (component.length - 1)
      let density : ℚ :=
        if 0 < maxPossibleEdges then
          (internalEdges : ℚ) / (maxPossibleEdges : ℚ)
        else 0
      { id := "cluster-" ++ toString (p.1 + 1)
        members := component
        density := density })
  (sortBy (fun a b => b.density ≤ a.density) mapped).take 5

/-! ## Lemmas about the map / set primitives -/

theorem mapHas_iff_mem_keys {β : Type} (m : List (String × β)) (k : String) :
    mapHas m k = true ↔ k ∈ keys m := by
  induction m with
  | nil => simp [mapHas, keys]
  | cons p m ih =>
      simp only [mapHas, Bool.or_eq_true, decide_eq_true_eq, ih, keys,
        List.map_cons, List.mem_cons]
      constructor
      · rintro (h | h)
        · exact Or.inl h.symm
        · exact Or.inr h
      · rintro (h | h)
        · exact Or.inl h.symm
        · exact Or.inr h

theorem mapGet_eq_none_of_not_has {β : Type} {m : List (String × β)}
    {k : String} (h : mapHas m k = false) : mapGet m k = none := by
  induction m with
  | nil => rfl
  | cons p m ih =>
      simp only [mapHas, Bool.or_eq_false_iff, decide_eq_false_iff_not] at h
      simp only [mapGet, if_neg h.1]
      exact ih h.2

theorem mapHas_of_mapGet_eq_some {β : Type} {m : List (String × β)}
    {k : String} {v : β} (h : mapGet m k = some v) : mapHas m k = true := by
  by_contra hc
  rw [mapGet_eq_none_of_not_has (Bool.eq_false_iff.mpr hc)] at h
  exact Option.noConfusion h

theorem mapGet_isSome_of_has {β : Type} {m : List (String × β)} {k : String}
    (h : mapHas m k = true) : ∃ v, mapGet m k = some v := by
  induction m with
  | nil => simp [mapHas] at h
  | cons p m ih =>
      by_cases hk : p.1 = k
      · exact ⟨p.2, by simp [mapGet, hk]⟩
      · simp only [mapHas, Bool.or_eq_true, decide_eq_true_eq, hk,
          false_or] at h
        obtain ⟨v, hv⟩ := ih h
        exact ⟨v, by simpa [mapGet, hk] using hv⟩

theorem mapGet_mem {β : Type} {m : List (String × β)} {k : String} {v : β}
    (h : mapGet m k = some v) : (k, v) ∈ m := by
  induction m with
  | nil => exact absurd h (by simp [mapGet])
  | cons p m ih =>
      by_cases hk : p.1 = k
      · simp only [mapGet, if_pos hk] at h
        obtain ⟨a, b⟩ := p
        obtain rfl : a = k := hk
        obtain rfl : b = v := by simpa using h
        exact List.mem_cons_self _ _
      · simp only [mapGet, if_neg hk] at h
        exact List.mem_cons_of_mem _ (ih h)

theorem mapGet_eq_some_of_mem_nodup {β : Type} {m : List (String × β)}
    {k : String} {v : β} (hnd : (keys m).Nodup) (h : (k, v) ∈ m) :
    mapGet m k = some v := by
  induction m with
  | nil => cases h
  | cons p m ih =>
      simp only [keys, List.map_cons, List.nodup_cons] at hnd
      rcases List.mem_cons.mp h with rfl | hmem
      · simp [mapGet]
      · have hk : p.1 ≠ k := by
          intro hc
          apply hnd.1
          rw [hc]
          exact List.mem_map_of_mem Prod.fst hmem
        simp only [mapGet, if_neg hk]
        exact ih hnd.2 hmem

theorem mapGet_mapSet_self {β : Type} (m : List (String × β))
    (k : String) (v : β) : mapGet (mapSet m k v) k = some v := by
  induction m with
  | nil => simp [mapSet, mapGet]
  | cons p m ih =>
      by_cases hk : p.1 = k
      · simp [mapSet, hk, mapGet]
      · simpa [mapSet, hk, mapGet] using ih

theorem mapGet_mapSet_ne {β : Type} (m : List (String × β))
    {k k' : String} (v : β) (hne : k' ≠ k) :
    mapGet (mapSet m k v) k' = mapGet m k' := by
  have hne' : ¬ k = k' := fun hc => hne hc.symm
  induction m with
  | nil => simp [mapSet, mapGet, hne']
  | cons p m ih =>
      by_cases hk : p.1 = k
      · have hp : ¬ p.1 = k' := fun hc => hne' (hk.symm.trans hc)
        simp [mapSet, hk, mapGet, hne', hp]
      · by_cases hk' : p.1 = k'
        · simp [mapSet, hk, mapGet, hk', hne]
        · simpa [mapSet, hk, mapGet, hk'] using ih

theorem keys_mapSet_of_has {β : Type} {m : List (String × β)} {k : String}
    (v : β) (h : mapHas m k = true) : keys (mapSet m k v) = keys m := by
  induction m with
  | nil => simp [mapHas] at h
  | cons p m ih =>
      by_cases hk : p.1 = k
      · simp [mapSet, hk, keys]
      · simp only [mapHas, Bool.or_eq_true, decide_eq_true_eq, hk,
          false_or] at h
        simp only [mapSet, if_neg hk, keys, List.map_cons]
        rw [show List.map Prod.fst (mapSet m k v) = keys (mapSet m k v) from rfl,
          ih h]
        rfl

theorem keys_mapSet_of_not_has {β : Type} {m : List (String × β)}
    {k : String} (v : β) (h : mapHas m k = false) :
    keys (mapSet m k v) = keys m ++ [k] := by
  induction m with
  | nil => simp [mapSet, keys]
  | cons p m ih =>
      simp only [mapHas, Bool.or_eq_false_iff, decide_eq_false_iff_not] at h
      simp only [mapSet, if_neg h.1, keys, List.map_cons, List.cons_append]
      rw [show List.map Prod.fst (mapSet m k v) = keys (mapSet m k v) from rfl,
        ih h.2]
      rfl

theorem mapHas_mapSet {β : Type} (m : List (String × β)) (k k' : String)
    (v : β) :
    mapHas (mapSet m k v) k' = (mapHas m k' || (k' = k : Bool)) := by
  induction m with
  | nil =>
      by_cases h : k' = k
      · simp [mapSet, mapHas, h]
      · have h' : ¬ k = k' := fun hc => h hc.symm
        simp [mapSet, mapHas, h, h']
  | cons p m ih =>
      by_cases hk : p.1 = k
      · subst hk
        by_cases hk' : p.1 = k'
        · simp [mapSet, mapHas, hk']
        · have h2 : ¬ k' = p.1 := fun hc => hk' hc.symm
          simp [mapSet, mapHas, hk', h2]
      · simp only [mapSet, if_neg hk, mapHas, ih, Bool.or_assoc]

theorem nodup_keys_mapSet {β : Type} {m : List (String × β)} {k : String}
    (v : β) (h : (keys m).Nodup) : (keys (mapSet m k v)).Nodup := by
  by_cases hk : mapHas m k = true
  · rwa [keys_mapSet_of_has v hk]
  · have hk' : mapHas m k = false := Bool.eq_false_iff.mpr hk
    rw [keys_mapSet_of_not_has v hk']
    have hkm : k ∉ keys m := fun hmem =>
      by simp [(mapHas_iff_mem_keys m k).mpr hmem] at hk'
    simp only [List.nodup_append, List.nodup_singleton]
    exact ⟨h, trivial, by simpa using hkm⟩

theorem nodup_keys_foldl_mapSet {β γ : Type} (f : γ → String)
    (g : γ → β) (l : List γ) :
    ∀ acc : List (String × β), (keys acc).Nodup →
      (keys (l.foldl (fun m x => mapSet m (f x) (g x)) acc)).Nodup := by
  induction l with
  | nil => intro acc h; exact h
  | cons x l ih =>
      intro acc h
      exact ih _ (nodup_keys_mapSet _ h)

theorem keys_mapDelete {β : Type} (m : List (String × β)) (k : String) :
    keys (mapDelete m k) = (keys m).filter (fun x => ¬ x = k) := by
  induction m with
  | nil => rfl
  | cons p m ih =>
      by_cases hk : p.1 = k
      · simpa [mapDelete, keys, List.filter_cons, hk] using ih
      · simpa [mapDelete, keys, List.filter_cons, hk] using ih

theorem nodup_keys_mapDelete {β : Type} {m : List (String × β)}
    (k : String) (h : (keys m).Nodup) : (keys (mapDelete m k)).Nodup := by
  rw [keys_mapDelete]; exact h.filter _

theorem mapHas_mapDelete {β : Type} (m : List (String × β))
    (k k' : String) :
    mapHas (mapDelete m k) k' = (mapHas m k' && !(k' = k : Bool)) := by
  induction m with
  | nil => simp [mapDelete, mapHas]
  | cons p m ih =>
      by_cases hk : p.1 = k
      · have hstep : mapDelete (p :: m) k = mapDelete m k := by
          simp [mapDelete, List.filter_cons, hk]
        rw [hstep, ih]
        by_cases hk' : k' = k
        · simp [mapHas, hk']
        · have hp : ¬ p.1 = k' := fun hc => hk' (hc.symm.trans hk)
          simp [mapHas, hk', hp]
      · have hstep : mapDelete (p :: m) k = p :: mapDelete m k := by
          simp [mapDelete, List.filter_cons, hk]
        rw [hstep]
        simp only [mapHas, ih]
        by_cases hk' : k' = k
        · have hp : ¬ p.1 = k' := fun hc => hk (hc.trans hk')
          simp [hk', hp, hk]
        · simp [hk', Bool.or_and_distrib_right]

theorem keys_map_fst {α β : Type} (l : List (String × α))
    (f : String × α → β) :
    keys (l.map (fun p => (p.1, f p))) = keys l := by
  induction l with
  | nil => rfl
  | cons p l ih => simp [keys]

theorem mapHas_removeNodes (ns : List (String × GraphNode))
    (ss : List String) (k : String) :
    mapHas (removeNodes ns ss) k = (mapHas ns k && !(k ∈ ss : Bool)) := by
  induction ss generalizing ns with
  | nil => simp [removeNodes]
  | cons s ss ih =>
      have hstep : removeNodes ns (s :: ss) = removeNodes (mapDelete ns s) ss :=
        rfl
      rw [hstep, ih, mapHas_mapDelete]
      by_cases h1 : k = s
      · simp [h1]
      · by_cases h2 : k ∈ ss <;> simp [h1, h2]

theorem nodup_keys_removeNodes {ns : List (String × GraphNode)}
    (ss : List String) (h : (keys ns).Nodup) :
    (keys (removeNodes ns ss)).Nodup := by
  induction ss generalizing ns with
  | nil => exact h
  | cons s ss ih => exact ih (nodup_keys_mapDelete s h)

theorem keys_updateCounts (bl : List (String × List String))
    (ns : List (String × GraphNode)) :
    keys (updateCounts bl ns) = keys ns := by
  unfold updateCounts
  exact keys_map_fst ns _

theorem keys_applyEdgeCounts (m : List (String × GraphNode))
    (e : GraphLink) : keys (applyEdgeCounts m e) = keys m := by
  unfold applyEdgeCounts
  have h1 : ∀ (m' : List (String × GraphNode)),
      keys (match mapGet m' e.target with
        | some n =>
            mapSet m' e.target
              { n with backlinkCount := n.backlinkCount + 1 }
        | none => m') = keys m' := by
    intro m'
    cases hs : mapGet m' e.target with
    | none => rfl
    | some n => exact keys_mapSet_of_has _ (mapHas_of_mapGet_eq_some hs)
  cases hs : mapGet m e.source with
  | none => simp only [hs, h1]
  | some n =>
      simp only [hs, h1]
      exact keys_mapSet_of_has _ (mapHas_of_mapGet_eq_some hs)

theorem keys_countPass (es : List GraphLink) :
    ∀ m : List (String × GraphNode),
      keys (es.foldl applyEdgeCounts m) = keys m := by
  induction es with
  | nil => intro m; rfl
  | cons e es ih =>
      intro m
      rw [List.foldl_cons, ih, keys_applyEdgeCounts]

theorem keys_recomputeFromEdges (ns : List (String × GraphNode))
    (es : List GraphLink) : keys (recomputeFromEdges ns es) = keys ns := by
  unfold recomputeFromEdges
  rw [keys_map_fst, keys_countPass, keys_map_fst]

theorem nodup_keys_initialNodes (notes : List ParsedNote) :
    (keys (initialNodes notes)).Nodup := by
  unfold initialNodes
  exact nodup_keys_foldl_mapSet _ _ notes [] (by simp [keys])

theorem nodup_keys_stagePreNodes (notes : List ParsedNote)
    (opts : GraphOptions) : (keys (stagePreNodes notes opts)).Nodup := by
  unfold stagePreNodes
  rw [keys_updateCounts]
  exact nodup_keys_initialNodes notes

theorem nodup_keys_stageKeptNodes (notes : List ParsedNote)
    (opts : GraphOptions) : (keys (stageKeptNodes notes opts)).Nodup := by
  unfold stageKeptNodes
  by_cases h : opts.includeOrphans = true
  · simp only [h, if_true]
    exact nodup_keys_removeNodes _ (nodup_keys_stagePreNodes notes opts)
  · simp only [h, if_false]
    exact nodup_keys_removeNodes _
      (nodup_keys_removeNodes _ (nodup_keys_stagePreNodes notes opts))

theorem nodup_keys_buildNoteGraph (notes : List ParsedNote)
    (opts : GraphOptions) :
    (keys (buildNoteGraph notes opts).nodes).Nodup := by
  show (keys (recomputeFromEdges _ _)).Nodup
  rw [keys_recomputeFromEdges]
  exact nodup_keys_stageKeptNodes notes opts

theorem mem_setAdd (s : List String) (x y : String) :
    y ∈ setAdd s x ↔ y ∈ s ∨ y = x := by
  unfold setAdd
  by_cases h : x ∈ s
  · simp only [h, if_true]
    constructor
    · exact Or.inl
    · rintro (hy | rfl) <;> assumption
  · simp [h, if_false, List.mem_append]

theorem nodup_setAdd {s : List String} (x : String) (h : s.Nodup) :
    (setAdd s x).Nodup := by
  unfold setAdd
  by_cases hx : x ∈ s
  · simpa [hx] using h
  · simp only [hx, if_false]
    simp only [List.nodup_append, List.nodup_singleton]
    exact ⟨h, trivial, by simpa using hx⟩

theorem mapHas_congr_keys {β γ : Type} {m : List (String × β)}
    {m' : List (String × γ)} (h : keys m = keys m') (k : String) :
    mapHas m k = mapHas m' k := by
  rcases Bool.dichotomy (mapHas m' k) with hb | hb <;> rw [hb]
  · rw [Bool.eq_false_iff]
    intro hc
    have hmem := (mapHas_iff_mem_keys _ _).mp hc
    rw [h] at hmem
    exact (Bool.eq_false_iff.mp hb) ((mapHas_iff_mem_keys _ _).mpr hmem)
  · exact (mapHas_iff_mem_keys _ _).mpr (h ▸ (mapHas_iff_mem_keys _ _).mp hb)

/-! ## Structural facts used by several claims -/

theorem recomputeFromEdges_linkCount (ns : List (String × GraphNode))
    (es : List GraphLink) :
    ∀ p ∈ recomputeFromEdges ns es,
      p.2.linkCount = p.2.forwardLinkCount + p.2.backlinkCount := by
  intro p hp
  unfold recomputeFromEdges at hp
  rcases List.mem_map.mp hp with ⟨q, _, rfl⟩
  rfl

theorem orphansOf_mem (ns : List (String × GraphNode)) (s : String) :
    s ∈ orphansOf ns ↔ ∃ n, (s, n) ∈ ns ∧ n.linkCount = 0 := by
  unfold orphansOf
  constructor
  · intro h
    rcases List.mem_map.mp h with ⟨p, hp, rfl⟩
    have := List.mem_filter.mp hp
    exact ⟨p.2, this.1, by simpa using this.2⟩
  · rintro ⟨n, hmem, h0⟩
    exact List.mem_map.mpr ⟨(s, n),
      List.mem_filter.mpr ⟨hmem, by simpa using h0⟩, rfl⟩

/-! ## Claims C1, C2, C3, C9 -/

/-- C1: in every graph returned by `buildNoteGraph`, every node's
`linkCount` equals its `forwardLinkCount` plus its `backlinkCount`. -/
theorem buildNoteGraph_linkCount_invariant (notes : List ParsedNote)
    (opts : GraphOptions) :
    ∀ p ∈ (buildNoteGraph notes opts).nodes,
      p.2.linkCount = p.2.forwardLinkCount + p.2.backlinkCount := by
  intro p hp
  exact recomputeFromEdges_linkCount _ _ p hp

/-- Witness for C1 on a concrete two-note input. -/
theorem buildNoteGraph_linkCount_invariant_witness :
    ∃ p, p ∈ (buildNoteGraph [⟨"a", none, ["b"]⟩, ⟨"b", none, []⟩] {}).nodes ∧
      p.2.linkCount = p.2.forwardLinkCount + p.2.backlinkCount := by
  exact ⟨("a",
      { id := "a", label := "a", linkCount := 1,
        backlinkCount := 0, forwardLinkCount := 1 }),
    by decide,
    buildNoteGraph_linkCount_invariant [⟨"a", none, ["b"]⟩, ⟨"b", none, []⟩]
      {} ("a",
        { id := "a", label := "a", linkCount := 1,
          backlinkCount := 0, forwardLinkCount := 1 }) (by decide)⟩

/-- C2: every edge of a built graph has both endpoints present in the
final nodes map (links to non-existent slugs never survive as edges, and
construction is total, raising no error). -/
theorem buildNoteGraph_edges_endpoints (notes : List ParsedNote)
    (opts : GraphOptions) :
    ∀ e ∈ (buildNoteGraph notes opts).edges,
      mapHas (buildNoteGraph notes opts).nodes e.source = true ∧
      mapHas (buildNoteGraph notes opts).nodes e.target = true := by
  intro e he
  have hedges : (buildNoteGraph notes opts).edges =
      (stageEdges notes opts).1.filter
        (fun e => mapHas (stageKeptNodes notes opts) e.source &&
          mapHas (stageKeptNodes notes opts) e.target) := rfl
  rw [hedges] at he
  have hp := List.of_mem_filter he
  rw [Bool.and_eq_true] at hp
  have hkeys : keys (buildNoteGraph notes opts).nodes =
      keys (stageKeptNodes notes opts) := keys_recomputeFromEdges _ _
  constructor
  · rw [mapHas_congr_keys hkeys]; exact hp.1
  · rw [mapHas_congr_keys hkeys]; exact hp.2

/-- Witness for C2: a graph with an edge, whose endpoints are present. -/
theorem buildNoteGraph_edges_endpoints_witness :
    ∃ e, e ∈ (buildNoteGraph [⟨"a", none, ["b"]⟩, ⟨"b", none, []⟩] {}).edges ∧
      (mapHas (buildNoteGraph [⟨"a", none, ["b"]⟩, ⟨"b", none, []⟩] {}).nodes
          e.source = true ∧
        mapHas (buildNoteGraph [⟨"a", none, ["b"]⟩, ⟨"b", none, []⟩] {}).nodes
          e.target = true) := by
  exact ⟨⟨"a", "b"⟩, by decide,
    buildNoteGraph_edges_endpoints [⟨"a", none, ["b"]⟩, ⟨"b", none, []⟩]
      {} ⟨"a", "b"⟩ (by decide)⟩

/-- C3: the orphans set of a built graph is exactly the set of slugs whose
final node has `linkCount = 0`. -/
theorem buildNoteGraph_orphans_iff (notes : List ParsedNote)
    (opts : GraphOptions) (s : String) :
    s ∈ (buildNoteGraph notes opts).orphans ↔
      ∃ n, mapGet (buildNoteGraph notes opts).nodes s = some n ∧
        n.linkCount = 0 := by
  have hnd := nodup_keys_buildNoteGraph notes opts
  have horph : (buildNoteGraph notes opts).orphans =
      orphansOf (buildNoteGraph notes opts).nodes := rfl
  rw [horph, orphansOf_mem]
  constructor
  · rintro ⟨n, hmem, h0⟩
    exact ⟨n, mapGet_eq_some_of_mem_nodup hnd hmem, h0⟩
  · rintro ⟨n, hget, h0⟩
    exact ⟨n, mapGet_mem hget, h0⟩

/-- C9: with `includeOrphans = false`, orphan removal is decided by
pre-filter link counts whose `forwardLinkCount` still counts links to
non-existent slugs; a note whose only link is dangling is therefore kept,
ends with final `linkCount = 0`, and appears in the final orphans set. -/
theorem buildNoteGraph_dangling_link_orphan_kept :
    ∃ (notes : List ParsedNote) (opts : GraphOptions) (s : String)
      (n : GraphNode),
      opts.includeOrphans = false ∧
      mapGet (buildNoteGraph notes opts).nodes s = some n ∧
      n.linkCount = 0 ∧
      s ∈ (buildNoteGraph notes opts).orphans := by
  refine ⟨[⟨"a", none, ["b"]⟩], ⟨false, false, 0⟩, "a",
    { id := "a", label := "a", linkCount := 0, backlinkCount := 0,
      forwardLinkCount := 0 }, rfl, ?_, rfl, ?_⟩ <;> decide

/-! ## Claims C5 and C10 -/

theorem mem_mapSet {β : Type} {m : List (String × β)} {k : String} {v : β}
    {p : String × β} (h : p ∈ mapSet m k v) : p ∈ m ∨ p = (k, v) := by
  induction m with
  | nil => simpa [mapSet] using h
  | cons q m ih =>
      by_cases hk : q.1 = k
      · simp only [mapSet, if_pos hk, List.mem_cons] at h
        rcases h with rfl | h
        · exact Or.inr rfl
        · exact Or.inl (List.mem_cons_of_mem _ h)
      · simp only [mapSet, if_neg hk, List.mem_cons] at h
        rcases h with rfl | h
        · exact Or.inl (List.mem_cons_self _ _)
        · rcases ih h with h' | h'
          · exact Or.inl (List.mem_cons_of_mem _ h')
          · exact Or.inr h'

theorem blAdd_values_nodup {bl : List (String × List String)}
    (hv : ∀ p ∈ bl, p.2.Nodup) (k v : String) :
    ∀ p ∈ blAdd bl k v, p.2.Nodup := by
  intro p hp
  unfold blAdd at hp
  cases hg : mapGet bl k with
  | none => rw [hg] at hp; exact hv p hp
  | some s =>
      rw [hg] at hp
      rcases mem_mapSet hp with h | rfl
      · exact hv p h
      · exact nodup_setAdd v (hv (k, s) (mapGet_mem hg))

theorem rebuildBacklinks_values_nodup (nodes : List (String × GraphNode))
    (es : List GraphLink) :
    ∀ p ∈ rebuildBacklinks nodes es, p.2.Nodup := by
  unfold rebuildBacklinks
  have hbase : ∀ p ∈ nodes.map (fun p => (p.1, ([] : List String))),
      p.2.Nodup := by
    intro p hp
    rcases List.mem_map.mp hp with ⟨q, _, rfl⟩
    exact List.nodup_nil
  revert hbase
  generalize nodes.map (fun p => (p.1, ([] : List String))) = base
  induction es generalizing base with
  | nil => intro h; exact h
  | cons e es ih =>
      intro h
      exact ih _ (blAdd_values_nodup h e.target e.source)

/-- C10, general half: `getBacklinks` on any built graph returns each
linking source at most once (the stored backlink sets are duplicate-free). -/
theorem getBacklinks_nodup (notes : List ParsedNote) (opts : GraphOptions)
    (slug : String) :
    (getBacklinks slug (buildNoteGraph notes opts)).Nodup := by
  unfold getBacklinks
  cases hg : mapGet (buildNoteGraph notes opts).backlinks slug with
  | none => exact List.nodup_nil
  | some s =>
      have hbl : (buildNoteGraph notes opts).backlinks =
          rebuildBacklinks (stageKeptNodes notes opts)
            ((stageEdges notes opts).1.filter
              (fun e => mapHas (stageKeptNodes notes opts) e.source &&
                mapHas (stageKeptNodes notes opts) e.target)) := rfl
      rw [hbl] at hg
      simpa using rebuildBacklinks_values_nodup _ _ _ (mapGet_mem hg)

/-- C10: a note linking to the same existing slug twice yields one edge per
occurrence, so the recomputed `backlinkCount` (2) strictly exceeds the size
of the deduplicated backlink set (1); `getBacklinks` reports the source
once, and in general returns each linking source at most once. -/
theorem duplicate_links_edges_vs_backlinks :
    (buildNoteGraph [⟨"a", none, ["b", "b"]⟩, ⟨"b", none, []⟩] {}).edges =
        [⟨"a", "b"⟩, ⟨"a", "b"⟩] ∧
    (∃ n, mapGet (buildNoteGraph [⟨"a", none, ["b", "b"]⟩, ⟨"b", none, []⟩]
          {}).nodes "b" = some n ∧
        n.backlinkCount = 2 ∧
        (getBacklinks "b"
            (buildNoteGraph [⟨"a", none, ["b", "b"]⟩, ⟨"b", none, []⟩] {})).length
          < n.backlinkCount) ∧
    getBacklinks "b" (buildNoteGraph [⟨"a", none, ["b", "b"]⟩, ⟨"b", none, []⟩]
        {}) = ["a"] ∧
    (∀ (notes : List ParsedNote) (opts : GraphOptions) (slug : String),
      (getBacklinks slug (buildNoteGraph notes opts)).Nodup) := by
  refine ⟨by decide,
    ⟨{ id := "b", label := "b", linkCount := 2,
       backlinkCount := 2, forwardLinkCount := 0 },
      by decide, by decide, by decide⟩,
    by decide, getBacklinks_nodup⟩

/-- C5 as stated is false: with `includeOrphans = false`, a node whose
pre-removal `linkCount` meets the threshold (0 ≥ 0 here) is nevertheless
dropped by the orphan pass. -/
theorem minimumConnections_retention_counterexample :
    (∃ n, mapGet (stagePreNodes [⟨"a", none, []⟩]
          ⟨false, false, 0⟩) "a" = some n ∧
        (⟨false, false, 0⟩ : GraphOptions).minimumConnections ≤ n.linkCount) ∧
    mapHas (buildNoteGraph [⟨"a", none, []⟩] ⟨false, false, 0⟩).nodes "a" =
      false := by
  refine ⟨
    ⟨{ id := "a", label := "a", linkCount := 0,
       backlinkCount := 0, forwardLinkCount := 0 },
      by decide, by decide⟩,
    by decide⟩

/-- C5, amended: removal under `minimumConnections` is decided solely by the
pre-removal `linkCount` (raw outbound count plus deduplicated backlink-set
size) with no fixpoint re-evaluation, so a node meeting the threshold is
retained — provided it is not also dropped by the orphan pass
(`includeOrphans = false` with a pre-removal `linkCount` of 0). -/
theorem minimumConnections_no_fixpoint (notes : List ParsedNote)
    (opts : GraphOptions) (slug : String) (n : GraphNode)
    (hget : mapGet (stagePreNodes notes opts) slug = some n)
    (hmin : opts.minimumConnections ≤ n.linkCount)
    (hkeep : opts.includeOrphans = true ∨ n.linkCount ≠ 0) :
    mapHas (buildNoteGraph notes opts).nodes slug = true := by
  have hnd := nodup_keys_stagePreNodes notes opts
  have hnotrm : slug ∉ (List.filter
      (fun p => p.2.linkCount < opts.minimumConnections)
      (stagePreNodes notes opts)).map (·.1) := by
    intro hmem
    rcases List.mem_map.mp hmem with ⟨p, hp, rfl⟩
    have h1 := List.mem_filter.mp hp
    have h2 : mapGet (stagePreNodes notes opts) p.1 = some p.2 :=
      mapGet_eq_some_of_mem_nodup hnd (by
        simpa using h1.1)
    rw [hget] at h2
    obtain rfl : n = p.2 := by simpa using h2
    have := h1.2
    simp only [decide_eq_true_eq] at this
    omega
  have hnotorph : opts.includeOrphans = false →
      slug ∉ orphansOf (stagePreNodes notes opts) := by
    intro hio hmem
    rcases (orphansOf_mem _ _).mp hmem with ⟨n', hmem', h0⟩
    have h2 : mapGet (stagePreNodes notes opts) slug = some n' :=
      mapGet_eq_some_of_mem_nodup hnd hmem'
    rw [hget] at h2
    obtain rfl : n = n' := by simpa using h2
    rcases hkeep with hk | hk
    · rw [hio] at hk; exact Bool.noConfusion hk
    · exact hk h0
  have hhas2 : mapHas (stagePreNodes notes opts) slug = true :=
    mapHas_of_mapGet_eq_some hget
  have hkept : mapHas (stageKeptNodes notes opts) slug = true := by
    unfold stageKeptNodes
    cases hio : opts.includeOrphans with
    | true =>
        simp only [if_true]
        rw [mapHas_removeNodes, hhas2]
        simpa using hnotrm
    | false =>
        simp only [Bool.false_eq_true, if_false]
        rw [mapHas_removeNodes, mapHas_removeNodes, hhas2]
        have h2 := hnotorph hio
        simp [hnotrm, h2]
  have hkeys : keys (buildNoteGraph notes opts).nodes =
      keys (stageKeptNodes notes opts) := keys_recomputeFromEdges _ _
  rw [mapHas_congr_keys hkeys]
  exact hkept

/-- Witness for the amended C5: a note whose single link is dangling has
pre-removal `linkCount` 1 ≥ `minimumConnections` 1 and is retained even
though its final recomputed `linkCount` is 0 (below the threshold). -/
theorem minimumConnections_no_fixpoint_witness :
    mapHas (buildNoteGraph [⟨"a", none, ["x"]⟩] ⟨true, false, 1⟩).nodes "a" =
        true ∧
    (∃ n, mapGet (buildNoteGraph [⟨"a", none, ["x"]⟩]
          ⟨true, false, 1⟩).nodes "a" = some n ∧ n.linkCount = 0) := by
  constructor
  · exact minimumConnections_no_fixpoint [⟨"a", none, ["x"]⟩]
      ⟨true, false, 1⟩ "a"
      { id := "a", label := "a", linkCount := 1, backlinkCount := 0,
        forwardLinkCount := 1 }
      (by decide) (by decide) (Or.inl rfl)
  · exact
      ⟨{ id := "a", label := "a", linkCount := 0, backlinkCount := 0,
         forwardLinkCount := 0 }, by decide, rfl⟩

/-! ## Claim C8: average connections -/

theorem sum_map_mapSet {β : Type} (f : String × β → ℕ)
    (m : List (String × β)) (k : String) (v w : β)
    (hget : mapGet m k = some v) :
    ((mapSet m k w).map f).sum + f (k, v) = (m.map f).sum + f (k, w) := by
  induction m with
  | nil => simp [mapGet] at hget
  | cons p m ih =>
      by_cases hk : p.1 = k
      · have hp : p = (k, v) := by
          obtain ⟨a, b⟩ := p
          simp only [mapGet, if_pos hk] at hget
          obtain rfl : a = k := hk
          obtain rfl : b = v := by simpa using hget
          rfl
        subst hp
        have hset : mapSet ((k, v) :: m) k w = (k, w) :: m := by
          simp [mapSet]
        rw [hset]
        simp only [List.map_cons, List.sum_cons]
        omega
      · simp only [mapGet, if_neg hk] at hget
        have := ih hget
        simp only [mapSet, if_neg hk, List.map_cons, List.sum_cons]
        omega

theorem sum_fb_applyEdgeCounts (m : List (String × GraphNode))
    (e : GraphLink) (hs : mapHas m e.source = true)
    (ht : mapHas m e.target = true) :
    ((applyEdgeCounts m e).map
        (fun p => p.2.forwardLinkCount + p.2.backlinkCount)).sum =
      (m.map (fun p => p.2.forwardLinkCount + p.2.backlinkCount)).sum + 2 := by
  obtain ⟨n, hn⟩ := mapGet_isSome_of_has hs
  have hkeys1 : keys (mapSet m e.source
      { n with forwardLinkCount := n.forwardLinkCount + 1 }) = keys m :=
    keys_mapSet_of_has _ (mapHas_of_mapGet_eq_some hn)
  have ht1 : mapHas (mapSet m e.source
      { n with forwardLinkCount := n.forwardLinkCount + 1 }) e.target =
      true := by
    rw [mapHas_congr_keys hkeys1]; exact ht
  obtain ⟨n2, hn2⟩ := mapGet_isSome_of_has ht1
  have hsum1 := sum_map_mapSet
    (fun p => p.2.forwardLinkCount + p.2.backlinkCount) m e.source n
    { n with forwardLinkCount := n.forwardLinkCount + 1 } hn
  have hsum2 := sum_map_mapSet
    (fun p => p.2.forwardLinkCount + p.2.backlinkCount)
    (mapSet m e.source
      { n with forwardLinkCount := n.forwardLinkCount + 1 })
    e.target n2 { n2 with backlinkCount := n2.backlinkCount + 1 } hn2
  simp only [applyEdgeCounts, hn, hn2]
  simp only at hsum1 hsum2
  omega

theorem sum_fb_countPass (es : List GraphLink) :
    ∀ m : List (String × GraphNode),
      (∀ e ∈ es, mapHas m e.source = true ∧ mapHas m e.target = true) →
      ((es.foldl applyEdgeCounts m).map
          (fun p => p.2.forwardLinkCount + p.2.backlinkCount)).sum =
        (m.map (fun p => p.2.forwardLinkCount + p.2.backlinkCount)).sum +
          2 * es.length := by
  induction es with
  | nil => intro m _; simp
  | cons e es ih =>
      intro m hall
      rw [List.foldl_cons]
      have he := hall e (List.mem_cons_self _ _)
      have hrest : ∀ e' ∈ es,
          mapHas (applyEdgeCounts m e) e'.source = true ∧
          mapHas (applyEdgeCounts m e) e'.target = true := by
        intro e' he'
        have h' := hall e' (List.mem_cons_of_mem _ he')
        constructor
        · rw [mapHas_congr_keys (keys_applyEdgeCounts m e)]; exact h'.1
        · rw [mapHas_congr_keys (keys_applyEdgeCounts m e)]; exact h'.2
      rw [ih _ hrest, sum_fb_applyEdgeCounts m e he.1 he.2,
        List.length_cons]
      omega

theorem sum_fb_zeroed (ns : List (String × GraphNode)) :
    ((ns.map (fun p => (p.1, { p.2 with
        forwardLinkCount := 0
        backlinkCount := 0
        linkCount := 0 }))).map
      (fun p => p.2.forwardLinkCount + p.2.backlinkCount)).sum = 0 := by
  induction ns with
  | nil => rfl
  | cons p ns ih => simpa using ih

theorem sum_linkCount_final (counted : List (String × GraphNode)) :
    ((counted.map (fun p => (p.1, { p.2 with
        linkCount := p.2.forwardLinkCount + p.2.backlinkCount }))).map
      (fun p => p.2.linkCount)).sum =
    (counted.map
      (fun p => p.2.forwardLinkCount + p.2.backlinkCount)).sum := by
  induction counted with
  | nil => rfl
  | cons p counted ih => simpa using ih

theorem sum_linkCount_recompute (ns : List (String × GraphNode))
    (es : List GraphLink)
    (hall : ∀ e ∈ es, mapHas ns e.source = true ∧ mapHas ns e.target = true) :
    ((recomputeFromEdges ns es).map (fun p => p.2.linkCount)).sum =
      2 * es.length := by
  unfold recomputeFromEdges
  rw [sum_linkCount_final]
  have hkeysz : keys (ns.map (fun p => (p.1, { p.2 with
      forwardLinkCount := 0
      backlinkCount := 0
      linkCount := 0 }))) = keys ns := keys_map_fst ns _
  have hall' : ∀ e ∈ es,
      mapHas (ns.map (fun p => (p.1, { p.2 with
        forwardLinkCount := 0
        backlinkCount := 0
        linkCount := 0 }))) e.source = true ∧
      mapHas (ns.map (fun p => (p.1, { p.2 with
        forwardLinkCount := 0
        backlinkCount := 0
        linkCount := 0 }))) e.target = true := by
    intro e he
    have h' := hall e he
    constructor
    · rw [mapHas_congr_keys hkeysz]; exact h'.1
    · rw [mapHas_congr_keys hkeysz]; exact h'.2
  rw [sum_fb_countPass es _ hall', sum_fb_zeroed]
  omega

theorem sum_linkCount_buildNoteGraph (notes : List ParsedNote)
    (opts : GraphOptions) :
    ((buildNoteGraph notes opts).nodes.map (fun p => p.2.linkCount)).sum =
      2 * (buildNoteGraph notes opts).edges.length := by
  have hall : ∀ e ∈ (stageEdges notes opts).1.filter
      (fun e => mapHas (stageKeptNodes notes opts) e.source &&
        mapHas (stageKeptNodes notes opts) e.target),
      mapHas (stageKeptNodes notes opts) e.source = true ∧
      mapHas (stageKeptNodes notes opts) e.target = true := by
    intro e he
    have hp := List.of_mem_filter he
    rw [Bool.and_eq_true] at hp
    exact hp
  exact sum_linkCount_recompute _ _ hall

theorem totalConnections_eq_sum (g : NoteGraph) :
    totalConnections g = (g.nodes.map (fun p => p.2.linkCount)).sum := by
  unfold totalConnections
  generalize g.nodes = l
  suffices h : ∀ acc, l.foldl (fun acc p => acc + p.2.linkCount) acc =
      acc + (l.map (fun p => p.2.linkCount)).sum by
    simpa using h 0
  induction l with
  | nil => intro acc; simp
  | cons p l ih =>
      intro acc
      simp only [List.foldl_cons, List.map_cons, List.sum_cons, ih]
      omega

/-- C8: for every built graph with `bidirectional = false` and a non-empty
node map, `averageConnections` (sum of all `linkCount`s over the node
count) equals `2 * edgeCount / nodeCount`. -/
theorem averageConnections_eq_two_edges_over_nodes
    (notes : List ParsedNote) (opts : GraphOptions)
    (hbid : opts.bidirectional = false)
    (hne : (buildNoteGraph notes opts).nodes ≠ []) :
    averageConnections (buildNoteGraph notes opts) =
      2 * ((buildNoteGraph notes opts).edges.length : ℚ) /
        ((buildNoteGraph notes opts).nodes.length : ℚ) := by
  unfold averageConnections
  have hlen : 0 < (buildNoteGraph notes opts).nodes.length :=
    List.length_pos.mpr hne
  rw [if_pos hlen, totalConnections_eq_sum, sum_linkCount_buildNoteGraph]
  push_cast
  ring

/-- Witness for C8 on a concrete two-note graph. -/
theorem averageConnections_eq_two_edges_over_nodes_witness :
    averageConnections
        (buildNoteGraph [⟨"a", none, ["b"]⟩, ⟨"b", none, []⟩] {}) =
      2 * ((buildNoteGraph [⟨"a", none, ["b"]⟩, ⟨"b", none, []⟩]
          {}).edges.length : ℚ) /
        ((buildNoteGraph [⟨"a", none, ["b"]⟩, ⟨"b", none, []⟩]
          {}).nodes.length : ℚ) :=
  averageConnections_eq_two_edges_over_nodes
    [⟨"a", none, ["b"]⟩, ⟨"b", none, []⟩] {} rfl (by decide)

/-! ## Claim C7: clusters -/

theorem mem_insertSorted {α : Type} (le : α → α → Bool) (x z : α) :
    ∀ l : List α, z ∈ insertSorted le x l ↔ z = x ∨ z ∈ l := by
  intro l
  induction l with
  | nil => simp [insertSorted]
  | cons y ys ih =>
      by_cases h : le y x = true
      · simp only [insertSorted, if_pos h, List.mem_cons, ih]
        tauto
      · simp only [insertSorted, if_neg h, List.mem_cons]

theorem insertSorted_perm {α : Type} (le : α → α → Bool) (x : α) :
    ∀ l : List α, (insertSorted le x l).Perm (x :: l) := by
  intro l
  induction l with
  | nil => simp [insertSorted]
  | cons y ys ih =>
      by_cases h : le y x = true
      · simp only [insertSorted, if_pos h]
        exact (List.Perm.cons y ih).trans (List.Perm.swap x y ys)
      · simp [insertSorted, if_neg h]

theorem sortBy_perm {α : Type} (le : α → α → Bool) (l : List α) :
    (sortBy le l).Perm l := by
  induction l with
  | nil => simp [sortBy]
  | cons x xs ih =>
      have hstep : sortBy le (x :: xs) = insertSorted le x (sortBy le xs) :=
        rfl
      rw [hstep]
      exact (insertSorted_perm le x (sortBy le xs)).trans
        (List.Perm.cons x ih)

theorem insertSorted_pairwise {α : Type} (le : α → α → Bool)
    (htotal : ∀ a b, le a b = true ∨ le b a = true)
    (htrans : ∀ a b c, le a b = true → le b c = true → le a c = true)
    (x : α) :
    ∀ l : List α, l.Pairwise (fun a b => le a b = true) →
      (insertSorted le x l).Pairwise (fun a b => le a b = true) := by
  intro l
  induction l with
  | nil => intro _; simp [insertSorted]
  | cons y ys ih =>
      intro hp
      rcases List.pairwise_cons.mp hp with ⟨hy, hys⟩
      by_cases h : le y x = true
      · simp only [insertSorted, if_pos h]
        refine List.pairwise_cons.mpr ⟨?_, ih hys⟩
        intro z hz
        rcases (mem_insertSorted le x z ys).mp hz with rfl | hz'
        · exact h
        · exact hy z hz'
      · simp only [insertSorted, if_neg h]
        have hxy : le x y = true := by
          rcases htotal x y with h' | h'
          · exact h'
          · exact absurd h' h
        refine List.pairwise_cons.mpr ⟨?_, hp⟩
        intro z hz
        rcases List.mem_cons.mp hz with rfl | hz'
        · exact hxy
        · exact htrans x y z hxy (hy z hz')

theorem sortBy_pairwise {α : Type} (le : α → α → Bool)
    (htotal : ∀ a b, le a b = true ∨ le b a = true)
    (htrans : ∀ a b c, le a b = true → le b c = true → le a c = true)
    (l : List α) :
    (sortBy le l).Pairwise (fun a b => le a b = true) := by
  induction l with
  | nil => simp [sortBy]
  | cons x xs ih =>
      exact insertSorted_pairwise le htotal htrans x (sortBy le xs) ih

/-- C7: `findClusters` over the strongly-connected components returns
exactly the components with at least 3 members — each carrying density
`internalEdges / (size * (size - 1))` — sorted descending by density and
truncated to at most 5 entries. -/
theorem findClusters_spec (g : NoteGraph) :
    (findClusters g (findStronglyConnectedComponents g)).length =
        min 5 (((findStronglyConnectedComponents g).filter
          (fun c => 2 < c.length)).length) ∧
    (∀ c ∈ findClusters g (findStronglyConnectedComponents g),
        c.members ∈ findStronglyConnectedComponents g ∧
        2 < c.members.length ∧
        c.density = (internalEdgesCount g.edges c.members : ℚ) /
          ((c.members.length * (c.members.length - 1) : ℕ) : ℚ)) ∧
    (findClusters g (findStronglyConnectedComponents g)).Pairwise
        (fun a b => b.density ≤ a.density) ∧
    ((((findStronglyConnectedComponents g).filter
          (fun c => 2 < c.length)).length ≤ 5) →
      ∀ comp ∈ findStronglyConnectedComponents g, 2 < comp.length →
        ∃ c ∈ findClusters g (findStronglyConnectedComponents g),
          c.members = comp) := by
  classical
  set comps := findStronglyConnectedComponents g with hcomps
  set qual := comps.filter (fun c => 2 < c.length) with hqual
  set mapped := qual.enum.map
    (fun p =>
      ({ id := "cluster-" ++ toString (p.1 + 1)
         members := p.2
         density :=
           if 0 < p.2.length * (p.2.length - 1) then
             (internalEdgesCount g.edges p.2 : ℚ) /
               ((p.2.length * (p.2.length - 1) : ℕ) : ℚ)
           else 0 } : Cluster)) with hmapped
  have hfc : findClusters g comps =
      (sortBy (fun a b => (b.density ≤ a.density : Bool)) mapped).take 5 :=
    rfl
  have hperm := sortBy_perm (fun a b => (b.density ≤ a.density : Bool)) mapped
  have hlensort := hperm.length_eq
  have hlenmapped : mapped.length = qual.length := by
    rw [hmapped, List.length_map, List.enum_length]
  refine ⟨?_, ?_, ?_, ?_⟩
  · rw [hfc, List.length_take, hlensort, hlenmapped]
  · intro c hc
    rw [hfc] at hc
    have hc1 : c ∈ sortBy (fun a b => (b.density ≤ a.density : Bool)) mapped :=
      List.mem_of_mem_take hc
    have hc2 : c ∈ mapped := hperm.mem_iff.mp hc1
    rw [hmapped] at hc2
    rcases List.mem_map.mp hc2 with ⟨p, hp, rfl⟩
    obtain ⟨i, comp⟩ := p
    obtain ⟨h1, h2⟩ := List.mem_enum hp
    have hmem : comp ∈ qual := h2 ▸ List.getElem_mem h1
    have hgt : 2 < comp.length := by
      have := List.mem_filter.mp (hqual ▸ hmem)
      simpa using this.2
    have hq : comp ∈ comps := by
      have := List.mem_filter.mp (hqual ▸ hmem)
      exact this.1
    refine ⟨hq, hgt, ?_⟩
    have hpos : 0 < comp.length * (comp.length - 1) :=
      Nat.mul_pos (by omega) (by omega)
    show (if 0 < comp.length * (comp.length - 1) then
        (internalEdgesCount g.edges comp : ℚ) /
          ((comp.length * (comp.length - 1) : ℕ) : ℚ)
      else 0) = _
    rw [if_pos hpos]
  · rw [hfc]
    have hpw := sortBy_pairwise (fun a b => (b.density ≤ a.density : Bool))
      (fun a b => by
        rcases le_total b.density a.density with h | h
        · exact Or.inl (by simpa using h)
        · exact Or.inr (by simpa using h))
      (fun a b c hab hbc => by
        simp only [decide_eq_true_eq] at hab hbc ⊢
        exact le_trans hbc hab)
      mapped
    have hsub := List.Pairwise.sublist (List.take_sublist 5 _) hpw
    exact hsub.imp (fun h => by simpa using h)
  · intro hle comp hcomp hgt
    have hqmem : comp ∈ qual := by
      rw [hqual]
      exact List.mem_filter.mpr ⟨hcomp, by simpa using hgt⟩
    obtain ⟨i, hi, hget2⟩ := List.mem_iff_getElem.mp hqmem
    have henum : (i, comp) ∈ qual.enum := by
      rw [List.mk_mem_enum_iff_getElem?]
      exact List.getElem?_eq_some.mpr ⟨hi, hget2⟩
    have hmemmapped : ∃ c ∈ mapped, c.members = comp := by
      rw [hmapped]
      exact ⟨_, List.mem_map.mpr ⟨(i, comp), henum, rfl⟩, rfl⟩
    have htake : (sortBy (fun a b => (b.density ≤ a.density : Bool))
        mapped).take 5 = sortBy (fun a b => (b.density ≤ a.density : Bool))
        mapped := by
      apply List.take_all_of_le
      rw [hlensort, hlenmapped]
      exact hle
    obtain ⟨c, hcm, hcmem⟩ := hmemmapped
    rw [hfc, htake]
    exact ⟨c, hperm.mem_iff.mpr hcm, hcmem⟩

/-- Witness for C7 on the 3-cycle-plus-tail graph of the spec's Scenario C:
the 3-member strongly connected component appears among the clusters. -/
theorem findClusters_spec_witness :
    ∃ c ∈ findClusters
        (buildNoteGraph [⟨"a", none, ["b"]⟩, ⟨"b", none, ["c"]⟩,
          ⟨"c", none, ["a", "d"]⟩, ⟨"d", none, []⟩] {})
        (findStronglyConnectedComponents
          (buildNoteGraph [⟨"a", none, ["b"]⟩, ⟨"b", none, ["c"]⟩,
            ⟨"c", none, ["a", "d"]⟩, ⟨"d", none, []⟩] {})),
      c.members = ["c", "b", "a"] :=
  (findClusters_spec
    (buildNoteGraph [⟨"a", none, ["b"]⟩, ⟨"b", none, ["c"]⟩,
      ⟨"c", none, ["a", "d"]⟩, ⟨"d", none, []⟩] {})).2.2.2
    (by decide) ["c", "b", "a"] (by decide) (by decide)

/-! ## Claim C4: shortest paths.  Path predicates. -/

/-- A directed path along the adjacency structure: a non-empty slug list
starting at `s`, ending at `t`, each consecutive pair an adjacency step. -/
def isPath (adj : List (String × List String)) (p : List String)
    (s t : String) : Prop :=
  p.head? = some s ∧ p.getLast? = some t ∧
    List.Chain' (fun u v => v ∈ adjGet adj u) p

/-- A directed path along the graph's edge list. -/
def isEdgePath (graph : NoteGraph) (p : List String) (s t : String) : Prop :=
  p.head? = some s ∧ p.getLast? = some t ∧
    List.Chain' (fun u v => ∃ e ∈ graph.edges, e.source = u ∧ e.target = v) p

theorem isPath_ne_nil {adj p s t} (h : isPath adj p s t) : p ≠ [] := by
  intro hc
  rw [hc] at h
  exact Option.noConfusion h.1

theorem isPath_length_pos {adj p s t} (h : isPath adj p s t) :
    1 ≤ p.length :=
  List.length_pos.mpr (isPath_ne_nil h)

theorem isPath_singleton {adj x s t} (h : isPath adj [x] s t) :
    x = s ∧ x = t := by
  obtain ⟨h1, h2, _⟩ := h
  exact ⟨by simpa using h1, by simpa using h2⟩

theorem isPath_single (adj : List (String × List String)) (s : String) :
    isPath adj [s] s s :=
  ⟨rfl, rfl, List.chain'_singleton s⟩

theorem isPath_snoc {adj p s w} (h : isPath adj p s w) {x : String}
    (hx : x ∈ adjGet adj w) : isPath adj (p ++ [x]) s x := by
  obtain ⟨h1, h2, h3⟩ := h
  refine ⟨?_, ?_, ?_⟩
  · rw [List.head?_append_of_ne_nil _ (isPath_ne_nil ⟨h1, h2, h3⟩)]
    exact h1
  · simp [List.getLast?_concat]
  · rw [List.chain'_append]
    refine ⟨h3, List.chain'_singleton x, ?_⟩
    intro a ha b hb
    rw [h2] at ha
    obtain rfl : w = a := by simpa using ha
    obtain rfl : x = b := by simpa using hb
    exact hx

theorem isPath_decomp {adj p s t} (h : isPath adj p s t)
    (hlen : 2 ≤ p.length) :
    ∃ p' w, p = p' ++ [t] ∧ isPath adj p' s w ∧ t ∈ adjGet adj w ∧
      p'.length + 1 = p.length := by
  obtain ⟨h1, h2, h3⟩ := h
  have hne : p ≠ [] := by intro hc; rw [hc] at h1; exact Option.noConfusion h1
  have hsplit : p.dropLast ++ [p.getLast hne] = p :=
    List.dropLast_append_getLast hne
  have hlast : p.getLast hne = t := by
    have := List.getLast?_eq_getLast p hne
    rw [h2] at this
    exact (Option.some.inj this).symm
  have hdne : p.dropLast ≠ [] := by
    intro hc
    have := congrArg List.length hsplit
    rw [hc] at this
    simp at this
    omega
  have hwne := hdne
  refine ⟨p.dropLast, p.dropLast.getLast hdne, by rw [hlast] at hsplit; exact hsplit.symm, ⟨?_, ?_, ?_⟩, ?_, ?_⟩
  · rw [← hsplit] at h1
    rwa [List.head?_append_of_ne_nil _ hdne] at h1
  · exact List.getLast?_eq_getLast _ hdne
  · rw [← hsplit] at h3
    exact (List.chain'_append.mp h3).1
  · rw [← hsplit] at h3
    have h4 := (List.chain'_append.mp h3).2.2
    have := h4 (p.dropLast.getLast hdne)
      (List.getLast?_eq_getLast _ hdne) (p.getLast hne) rfl
    rwa [hlast] at this
  · have := congrArg List.length hsplit
    simpa using this

theorem path_closed {adj : List (String × List String)} {V : List String}
    (hcl : ∀ x ∈ V, ∀ y ∈ adjGet adj x, y ∈ V) :
    ∀ (p : List String) (s t : String), isPath adj p s t → s ∈ V → t ∈ V := by
  intro p
  induction p with
  | nil => intro s t h _; exact absurd rfl (isPath_ne_nil h)
  | cons x rest ih =>
      intro s t h hs
      obtain ⟨h1, h2, h3⟩ := h
      have hxV : x ∈ V := by
        have hxs : x = s := by simpa using h1
        rw [hxs]; exact hs
      cases rest with
      | nil =>
          have hxt : x = t := by simpa using h2
          rw [← hxt]; exact hxV
      | cons y rest' =>
          have hy : y ∈ adjGet adj x := (List.chain'_cons.mp h3).1
          have hyV : y ∈ V := hcl x hxV y hy
          exact ih y t ⟨rfl, by simpa using h2, (List.chain'_cons.mp h3).2⟩ hyV

/-! ## Claim C4: parent chains -/

/-- The chain of BFS parent pointers from a node back to the source,
measured in steps. -/
inductive ParentChain (parent : List (String × String)) (s : String) :
    String → ℕ → Prop
  | zero : ParentChain parent s s 0
  | succ : ∀ {x y : String} {n : ℕ}, mapGet parent x = some y →
      ParentChain parent s y n → ParentChain parent s x (n + 1)

theorem ParentChain.unique {P : List (String × String)} {s : String}
    (hs : mapGet P s = none) {x : String} {n m : ℕ}
    (h1 : ParentChain P s x n) (h2 : ParentChain P s x m) : n = m := by
  induction h1 generalizing m with
  | zero =>
      cases h2 with
      | zero => rfl
      | succ hx _ => rw [hs] at hx; exact Option.noConfusion hx
  | succ hx hc ih =>
      cases h2 with
      | zero => rw [hs] at hx; exact Option.noConfusion hx
      | succ hx' hc' =>
          rw [hx] at hx'
          obtain rfl := Option.some.inj hx'
          rw [ih hc']

theorem ParentChain.congrV {P P' : List (String × String)} {s : String}
    {V : List String} {x : String} {n : ℕ}
    (h : ParentChain P s x n)
    (hvis : ∀ a b, mapGet P a = some b → b ∈ V)
    (hpres : ∀ z ∈ V, mapGet P' z = mapGet P z) :
    x ∈ V → ParentChain P' s x n := by
  induction h with
  | zero => intro _; exact .zero
  | succ hxy hc ih =>
      intro hx
      exact .succ (by rw [hpres _ hx]; exact hxy) (ih (hvis _ _ hxy))

theorem reconstructPath_spec {adj : List (String × List String)}
    {P : List (String × String)} {s : String}
    (hs : mapGet P s = none)
    (hedges : ∀ a b, mapGet P a = some b → a ∈ adjGet adj b) :
    ∀ {n : ℕ} {x : String}, ParentChain P s x n → ∀ fuel, n ≤ fuel →
    ∀ acc, ∃ p, reconstructPath P fuel x acc = p ++ acc ∧
      isPath adj p s x ∧ p.length = n + 1 := by
  intro n x h
  induction h with
  | zero =>
      intro fuel _ acc
      refine ⟨[s], ?_, isPath_single adj s, rfl⟩
      cases fuel with
      | zero => rfl
      | succ f => simp [reconstructPath, hs]
  | succ hxy hc ih =>
      intro fuel hfuel acc
      cases fuel with
      | zero => omega
      | succ f =>
          obtain ⟨p', hrec, hpath, hlen⟩ := ih f (by omega) (_ :: acc)
          refine ⟨p' ++ [_], ?_, isPath_snoc hpath (hedges _ _ hxy), ?_⟩
          · show reconstructPath P (f + 1) _ acc = _
            simp only [reconstructPath, hxy]
            rw [hrec, List.append_assoc]
            rfl
          · simp [hlen]

/-! ## Claim C4: the BFS loop invariant -/

/-- The invariant of the BFS `while` loop in `findShortestPath`:
`univ` is a finite universe containing every reachable node, `s` the
source, `t` the target. -/
structure BFSInv (adj : List (String × List String)) (s t : String)
    (univ : List String) (st : BFSState) : Prop where
  vnodup : st.visited.Nodup
  qnodup : st.queue.Nodup
  qsubv : ∀ x ∈ st.queue, x ∈ st.visited
  svisited : s ∈ st.visited
  vuniv : ∀ x ∈ st.visited, x ∈ univ
  pdom : ∀ x, (mapGet st.parent x).isSome = true ↔
    (x ∈ st.visited ∧ x ≠ s)
  pmem : ∀ x y, mapGet st.parent x = some y →
    y ∈ st.visited ∧ x ∈ adjGet adj y
  tinq : t ∈ st.visited → t ∈ st.queue
  closed : ∀ x ∈ st.visited, x ∉ st.queue →
    ∀ y ∈ adjGet adj x, y ∈ st.visited
  depth : ∀ x ∈ st.visited, ∃ n, ParentChain st.parent s x n ∧
    n ≤ st.parent.length ∧
    (∃ p, isPath adj p s x ∧ p.length = n + 1) ∧
    (∀ p, isPath adj p s x → n + 1 ≤ p.length)
  qlevels : ∃ ds : List ℕ,
    List.Forall₂ (fun x d => ParentChain st.parent s x d) st.queue ds ∧
    ds.Pairwise (· ≤ ·) ∧
    (∀ d ∈ ds, ∀ d0, ds.head? = some d0 → d ≤ d0 + 1)

theorem forall₂_exists_right {α β : Type} {R : α → β → Prop}
    {l₁ : List α} {l₂ : List β} (h : List.Forall₂ R l₁ l₂) :
    ∀ x ∈ l₁, ∃ y ∈ l₂, R x y := by
  induction h with
  | nil => intro x hx; cases hx
  | cons hr _ ih =>
      intro x hx
      rcases List.mem_cons.mp hx with rfl | hx'
      · exact ⟨_, List.mem_cons_self _ _, hr⟩
      · obtain ⟨y, hy, hry⟩ := ih x hx'
        exact ⟨y, List.mem_cons_of_mem _ hy, hry⟩

theorem nodup_subset_length {l l' : List String} (hnd : l.Nodup)
    (hsub : ∀ x ∈ l, x ∈ l') : l.length ≤ l'.length := by
  calc l.length = l.toFinset.card := (List.toFinset_card_of_nodup hnd).symm
    _ ≤ l'.toFinset.card := Finset.card_le_card (fun x hx => by
        rw [List.mem_toFinset] at hx ⊢
        exact hsub x hx)
    _ ≤ l'.length := List.toFinset_card_le l'

theorem pairwise_replicate_le (k n : ℕ) :
    (List.replicate n k).Pairwise (fun a b => a ≤ b) := by
  induction n with
  | zero => exact List.Pairwise.nil
  | succ n ih =>
      rw [List.replicate_succ]
      refine List.pairwise_cons.mpr ⟨?_, ih⟩
      intro b hb
      rw [List.eq_of_mem_replicate hb]

theorem mapSet_length_of_not_has {β : Type} {m : List (String × β)}
    {k : String} (v : β) (h : mapHas m k = false) :
    (mapSet m k v).length = m.length + 1 := by
  have h1 : (keys (mapSet m k v)).length = (keys m ++ [k]).length :=
    congrArg List.length (keys_mapSet_of_not_has v h)
  simpa [keys] using h1

theorem mapHas_false_of_none {β : Type} {m : List (String × β)}
    {k : String} (h : mapGet m k = none) : mapHas m k = false := by
  cases hb : mapHas m k with
  | false => rfl
  | true =>
      obtain ⟨v, hv⟩ := mapGet_isSome_of_has hb
      rw [h] at hv
      exact Option.noConfusion hv

theorem processNeighbors_spec (current : String) (neighbors : List String) :
    ∀ st : BFSState,
      (∀ x, (mapGet st.parent x).isSome = true → x ∈ st.visited) →
      ∃ new : List String,
        (processNeighbors current neighbors st).queue = st.queue ++ new ∧
        (processNeighbors current neighbors st).visited =
          st.visited ++ new ∧
        new.Nodup ∧
        (∀ x ∈ new, x ∈ neighbors ∧ x ∉ st.visited) ∧
        (∀ x ∈ neighbors, x ∈ (processNeighbors current neighbors st).visited) ∧
        (∀ x ∈ new,
          mapGet (processNeighbors current neighbors st).parent x =
            some current) ∧
        (∀ x, x ∉ new →
          mapGet (processNeighbors current neighbors st).parent x =
            mapGet st.parent x) ∧
        (processNeighbors current neighbors st).parent.length =
          st.parent.length + new.length := by
  induction neighbors with
  | nil =>
      intro st _
      exact ⟨[], by simp [processNeighbors], by simp [processNeighbors],
        List.nodup_nil, by simp, by simp, by simp,
        fun x _ => by simp [processNeighbors], by simp [processNeighbors]⟩
  | cons nb nbrs ih =>
      intro st hpar
      by_cases hnb : nb ∈ st.visited
      · have hstep : processNeighbors current (nb :: nbrs) st =
            processNeighbors current nbrs st := by
          simp [processNeighbors, hnb]
        obtain ⟨new, h1, h2, h3, h4, h5, h6, h7, h8⟩ := ih st hpar
        rw [hstep]
        refine ⟨new, h1, h2, h3, ?_, ?_, h6, h7, h8⟩
        · intro x hx
          obtain ⟨hx1, hx2⟩ := h4 x hx
          exact ⟨List.mem_cons_of_mem _ hx1, hx2⟩
        · intro x hx
          rcases List.mem_cons.mp hx with rfl | hx'
          · rw [h2]; exact List.mem_append_left _ hnb
          · exact h5 x hx'
      · have hnotkey : mapGet st.parent nb = none := by
          cases hg : mapGet st.parent nb with
          | none => rfl
          | some y =>
              exact absurd (hpar nb (by simp [hg])) hnb
        have hstep : processNeighbors current (nb :: nbrs) st =
            processNeighbors current nbrs
              { queue := st.queue ++ [nb]
                visited := st.visited ++ [nb]
                parent := mapSet st.parent nb current } := by
          simp [processNeighbors, hnb]
        set st1 : BFSState :=
          { queue := st.queue ++ [nb]
            visited := st.visited ++ [nb]
            parent := mapSet st.parent nb current } with hst1
        have hpar1 : ∀ x, (mapGet st1.parent x).isSome = true →
            x ∈ st1.visited := by
          intro x hx
          by_cases hxnb : x = nb
          · rw [hst1, hxnb]
            exact List.mem_append_right _ (List.mem_singleton_self nb)
          · rw [hst1] at hx ⊢
            simp only at hx
            rw [mapGet_mapSet_ne _ _ hxnb] at hx
            exact List.mem_append_left _ (hpar x hx)
        obtain ⟨new, h1, h2, h3, h4, h5, h6, h7, h8⟩ := ih st1 hpar1
        rw [hstep]
        have hnbnew : nb ∉ new := by
          intro hc
          exact (h4 nb hc).2 (List.mem_append_right _
            (List.mem_singleton_self nb))
        refine ⟨nb :: new, ?_, ?_, ?_, ?_, ?_, ?_, ?_, ?_⟩
        · rw [h1, hst1]; simp
        · rw [h2, hst1]; simp
        · exact List.nodup_cons.mpr ⟨hnbnew, h3⟩
        · intro x hx
          rcases List.mem_cons.mp hx with rfl | hx'
          · exact ⟨List.mem_cons_self _ _, hnb⟩
          · obtain ⟨hx1, hx2⟩ := h4 x hx'
            refine ⟨List.mem_cons_of_mem _ hx1, fun hc => hx2 ?_⟩
            rw [hst1]
            exact List.mem_append_left _ hc
        · intro x hx
          rcases List.mem_cons.mp hx with rfl | hx'
          · rw [h2, hst1]
            exact List.mem_append_left _
              (List.mem_append_right _ (List.mem_singleton_self x))
          · exact h5 x hx'
        · intro x hx
          rcases List.mem_cons.mp hx with rfl | hx'
          · rw [h7 x hnbnew, hst1]
            simp only
            exact mapGet_mapSet_self _ _ _
          · exact h6 x hx'
        · intro x hx
          have hxnb : x ≠ nb := fun hc => hx (hc ▸ List.mem_cons_self _ _)
          have hxnew : x ∉ new := fun hc => hx (List.mem_cons_of_mem _ hc)
          rw [h7 x hxnew, hst1]
          simp only
          exact mapGet_mapSet_ne _ _ hxnb
        · rw [h8, hst1]
          simp only
          rw [mapSet_length_of_not_has current (mapHas_false_of_none hnotkey)]
          simp [List.length_cons]
          omega

theorem forall₂_congr_mem {α β : Type} {R R' : α → β → Prop}
    {l : List α} {ds : List β} (h : List.Forall₂ R l ds)
    (himp : ∀ x ∈ l, ∀ d, R x d → R' x d) : List.Forall₂ R' l ds := by
  induction h with
  | nil => exact List.Forall₂.nil
  | cons hr htail ih =>
      exact List.Forall₂.cons
        (himp _ (List.mem_cons_self _ _) _ hr)
        (ih (fun x hx d hd => himp x (List.mem_cons_of_mem _ hx) d hd))

theorem forall₂_replicate {α β : Type} {R : α → β → Prop} {l : List α}
    {c : β} (h : ∀ x ∈ l, R x c) :
    List.Forall₂ R l (List.replicate l.length c) := by
  induction l with
  | nil => exact List.Forall₂.nil
  | cons x xs ih =>
      rw [List.length_cons, List.replicate_succ]
      exact List.Forall₂.cons (h x (List.mem_cons_self _ _))
        (ih (fun y hy => h y (List.mem_cons_of_mem _ hy)))

theorem bfsInv_parent_none {adj s t univ st}
    (hInv : BFSInv adj s t univ st) : mapGet st.parent s = none := by
  cases hg : mapGet st.parent s with
  | none => rfl
  | some y =>
      have := (hInv.pdom s).mp (by simp [hg])
      exact absurd rfl this.2

/-- Any path from the source to a not-yet-visited node is at least two
nodes longer than the parent-chain depth of the queue head. -/
theorem unvisited_path_bound {adj : List (String × List String)}
    {s t : String} {univ : List String} {st : BFSState}
    (hInv : BFSInv adj s t univ st) {current : String} {rest : List String}
    (hq : st.queue = current :: rest) {k : ℕ}
    (hk : ParentChain st.parent s current k) :
    ∀ (L : ℕ) (p : List String) (x : String), p.length ≤ L →
      x ∉ st.visited → isPath adj p s x → k + 2 ≤ p.length := by
  have hpnone := bfsInv_parent_none hInv
  intro L
  induction L with
  | zero =>
      intro p x hL hx hp
      have := isPath_length_pos hp
      omega
  | succ L ih =>
      intro p x hL hx hp
      have h1 := isPath_length_pos hp
      have hxs : x ≠ s := fun hc => hx (hc ▸ hInv.svisited)
      have h2 : 2 ≤ p.length := by
        rcases Nat.lt_or_ge p.length 2 with h | h
        · have hlen1 : p.length = 1 := by omega
          obtain ⟨a, rfl⟩ := List.length_eq_one.mp hlen1
          obtain ⟨ha1, ha2⟩ := isPath_singleton hp
          exact absurd (ha2 ▸ ha1 : x = s) hxs
        · exact h
      obtain ⟨p', w, hpeq, hp', hedge, hlen'⟩ := isPath_decomp hp h2
      by_cases hw : w ∈ st.visited
      · have hwq : w ∈ st.queue := by
          by_contra hwq
          exact hx (hInv.closed w hw hwq x hedge)
        obtain ⟨ds, hf2, hsort, hwin⟩ := hInv.qlevels
        rw [hq] at hf2
        cases hf2 with
        | cons hd0 htail =>
            rename_i d0 ds₁
            have hd0k : d0 = k := ParentChain.unique hpnone hd0 hk
            obtain ⟨dw, hdwmem, hdw⟩ := forall₂_exists_right
              (List.Forall₂.cons hd0 htail) w (hq ▸ hwq)
            have hk_le_dw : k ≤ dw := by
              rcases List.mem_cons.mp hdwmem with rfl | hmem'
              · omega
              · have := (List.pairwise_cons.mp hsort).1 dw hmem'
                omega
            obtain ⟨n, hchn, _, _, hmin⟩ := hInv.depth w hw
            have hn : n = dw := ParentChain.unique hpnone hchn hdw
            have hmin' := hmin p' hp'
            omega
      · have := ih p' w (by omega) hw hp'
        omega

/-- One iteration of the BFS loop preserves the invariant; the queue grows
by exactly the nodes newly visited. -/
theorem bfs_step_inv {adj : List (String × List String)} {s t : String}
    {univ : List String} {st : BFSState}
    (hadjuniv : ∀ u v, v ∈ adjGet adj u → v ∈ univ)
    (hInv : BFSInv adj s t univ st) {current : String} {rest : List String}
    (hq : st.queue = current :: rest) (hcur : current ≠ t) :
    ∃ new : List String,
      BFSInv adj s t univ
        (processNeighbors current (adjGet adj current)
          { st with queue := rest }) ∧
      (processNeighbors current (adjGet adj current)
        { st with queue := rest }).queue.length =
          rest.length + new.length ∧
      (processNeighbors current (adjGet adj current)
        { st with queue := rest }).visited.length =
          st.visited.length + new.length := by
  have hpnone := bfsInv_parent_none hInv
  have hcurq : current ∈ st.queue := by rw [hq]; exact List.mem_cons_self _ _
  have hcurv : current ∈ st.visited := hInv.qsubv current hcurq
  obtain ⟨k, hkchain, hkbound, ⟨pc, hpc, hpclen⟩, hkmin⟩ :=
    hInv.depth current hcurv
  obtain ⟨new, hq', hv', hnodupnew, hnewprop, hnbrsv, hpnew, hpold, hplen⟩ :=
    processNeighbors_spec current (adjGet adj current)
      { st with queue := rest }
      (fun x hx => ((hInv.pdom x).mp hx).1)
  simp only at hq' hv' hpnew hpold hplen hnbrsv hnewprop
  set st' := processNeighbors current (adjGet adj current)
    { st with queue := rest } with hst'
  have hrestv : ∀ x ∈ rest, x ∈ st.visited := fun x hx =>
    hInv.qsubv x (by rw [hq]; exact List.mem_cons_of_mem _ hx)
  have hnewnotv : ∀ x ∈ new, x ∉ st.visited := fun x hx => (hnewprop x hx).2
  have hnewnbrs : ∀ x ∈ new, x ∈ adjGet adj current := fun x hx =>
    (hnewprop x hx).1
  have hpres : ∀ z ∈ st.visited, mapGet st'.parent z = mapGet st.parent z :=
    fun z hz => hpold z (fun hc => hnewnotv z hc hz)
  have hchainlift : ∀ x ∈ st.visited, ∀ n, ParentChain st.parent s x n →
      ParentChain st'.parent s x n := fun x hx n hn =>
    hn.congrV (fun a b hab => (hInv.pmem a b hab).1) hpres hx
  have hs' : mapGet st'.parent s = none := by
    rw [hpres s hInv.svisited]; exact hpnone
  have hvmem : ∀ x, x ∈ st'.visited ↔ (x ∈ st.visited ∨ x ∈ new) := by
    intro x; rw [hv']; exact List.mem_append
  have hnewchain : ∀ x ∈ new, ParentChain st'.parent s x (k + 1) :=
    fun x hx => .succ (hpnew x hx) (hchainlift current hcurv k hkchain)
  refine ⟨new, ?_, ?_, ?_⟩
  · refine ⟨?_, ?_, ?_, ?_, ?_, ?_, ?_, ?_, ?_, ?_, ?_⟩
    · -- vnodup
      rw [hv', List.nodup_append]
      exact ⟨hInv.vnodup, hnodupnew, fun a ha => fun hc => hnewnotv a hc ha⟩
    · -- qnodup
      rw [hq', List.nodup_append]
      have : (current :: rest).Nodup := hq ▸ hInv.qnodup
      exact ⟨(List.nodup_cons.mp this).2, hnodupnew,
        fun a ha hc => hnewnotv a hc (hrestv a ha)⟩
    · -- qsubv
      intro x hx
      rw [hq'] at hx
      rcases List.mem_append.mp hx with hx' | hx'
      · exact (hvmem x).mpr (Or.inl (hrestv x hx'))
      · exact (hvmem x).mpr (Or.inr hx')
    · -- svisited
      exact (hvmem s).mpr (Or.inl hInv.svisited)
    · -- vuniv
      intro x hx
      rcases (hvmem x).mp hx with hx' | hx'
      · exact hInv.vuniv x hx'
      · exact hadjuniv current x (hnewnbrs x hx')
    · -- pdom
      intro x
      by_cases hx : x ∈ new
      · constructor
        · intro _
          refine ⟨(hvmem x).mpr (Or.inr hx), fun hc => ?_⟩
          exact hnewnotv x hx (hc ▸ hInv.svisited)
        · intro _
          rw [hpnew x hx]
          rfl
      · rw [hpold x hx]
        rw [hInv.pdom x]
        constructor
        · rintro ⟨h1, h2⟩
          exact ⟨(hvmem x).mpr (Or.inl h1), h2⟩
        · rintro ⟨h1, h2⟩
          rcases (hvmem x).mp h1 with h1' | h1'
          · exact ⟨h1', h2⟩
          · exact absurd h1' hx
    · -- pmem
      intro x y hxy
      by_cases hx : x ∈ new
      · rw [hpnew x hx] at hxy
        obtain rfl : current = y := by simpa using hxy
        exact ⟨(hvmem current).mpr (Or.inl hcurv), hnewnbrs x hx⟩
      · rw [hpold x hx] at hxy
        obtain ⟨h1, h2⟩ := hInv.pmem x y hxy
        exact ⟨(hvmem y).mpr (Or.inl h1), h2⟩
    · -- tinq
      intro ht
      rw [hq']
      rcases (hvmem t).mp ht with ht' | ht'
      · have := hInv.tinq ht'
        rw [hq] at this
        rcases List.mem_cons.mp this with h | h
        · exact absurd h.symm hcur
        · exact List.mem_append_left _ h
      · exact List.mem_append_right _ ht'
    · -- closed
      intro x hx hxq y hy
      have hxnotnew : x ∉ new := fun hc => hxq (by
        rw [hq']; exact List.mem_append_right _ hc)
      have hxv : x ∈ st.visited := by
        rcases (hvmem x).mp hx with h | h
        · exact h
        · exact absurd h hxnotnew
      by_cases hxc : x = current
      · subst hxc
        exact hnbrsv y hy
      · have hxq0 : x ∉ st.queue := by
          rw [hq]
          intro hc
          rcases List.mem_cons.mp hc with h | h
          · exact hxc h
          · exact hxq (by rw [hq']; exact List.mem_append_left _ h)
        exact (hvmem y).mpr (Or.inl (hInv.closed x hxv hxq0 y hy))
    · -- depth
      intro x hx
      rcases (hvmem x).mp hx with hxv | hxnew
      · obtain ⟨n, hn1, hn2, hn3, hn4⟩ := hInv.depth x hxv
        exact ⟨n, hchainlift x hxv n hn1, by omega, hn3, hn4⟩
      · refine ⟨k + 1, hnewchain x hxnew, ?_, ?_, ?_⟩
        · have : 1 ≤ new.length := List.length_pos.mpr
            (List.ne_nil_of_mem hxnew)
          omega
        · exact ⟨pc ++ [x], isPath_snoc hpc (hnewnbrs x hxnew), by
            simp [hpclen]⟩
        · intro p hp
          have := unvisited_path_bound hInv hq hkchain p.length p x
            le_rfl (hnewnotv x hxnew) hp
          omega
    · -- qlevels
      obtain ⟨ds, hf2, hsort, hwin⟩ := hInv.qlevels
      rw [hq] at hf2
      cases hf2 with
      | cons hd0 htail =>
          rename_i d0 ds₁
          have hd0k : d0 = k := ParentChain.unique hpnone hd0 hkchain
          subst hd0k
          refine ⟨ds₁ ++ List.replicate new.length (d0 + 1), ?_, ?_, ?_⟩
          · rw [hq']
            refine List.rel_append ?_ ?_
            · exact forall₂_congr_mem htail
                (fun x hx d hd => hchainlift x (hrestv x hx) d hd)
            · exact forall₂_replicate (fun x hx => hnewchain x hx)
          · rw [List.pairwise_append]
            refine ⟨(List.pairwise_cons.mp hsort).2,
              pairwise_replicate_le _ _, ?_⟩
            intro a ha b hb
            rw [List.eq_of_mem_replicate hb]
            have := hwin a (List.mem_cons_of_mem _ ha) d0 rfl
            omega
          · intro d hd e0 he0
            cases hds₁ : ds₁ with
            | cons c ds₂ =>
                rw [hds₁] at he0
                have hce0 : c = e0 := by simpa using he0
                have hke0 : d0 ≤ c := (List.pairwise_cons.mp hsort).1 c
                  (by rw [hds₁]; exact List.mem_cons_self _ _)
                rw [hds₁] at hd
                rcases List.mem_append.mp hd with hd' | hd'
                · have := hwin d (List.mem_cons_of_mem _ (hds₁ ▸ hd')) d0 rfl
                  omega
                · rw [List.eq_of_mem_replicate hd']
                  omega
            | nil =>
                rw [hds₁] at hd he0
                simp only [List.nil_append] at hd he0
                rw [List.eq_of_mem_replicate hd]
                cases hnew : new with
                | nil => rw [hnew] at hd; simp at hd
                | cons z zs =>
                    rw [hnew] at he0
                    simp [List.replicate_succ] at he0
                    omega
  · rw [hq']
    simp
  · rw [hv']
    simp

/-! ## Claim C4: the adjacency map agrees with the edge list -/

theorem adjGet_addAdjacencyEdge (acc : List (String × List String))
    (e : GraphLink) (u : String) :
    adjGet (addAdjacencyEdge acc e) u =
      if u = e.source then setAdd (adjGet acc u) e.target
      else adjGet acc u := by
  unfold addAdjacencyEdge
  by_cases hh : mapHas acc e.source = true
  · simp only [hh, if_true]
    obtain ⟨s0, hs0⟩ := mapGet_isSome_of_has hh
    rw [hs0]
    by_cases hu : u = e.source
    · rw [if_pos hu, hu]
      simp [adjGet, mapGet_mapSet_self, hs0]
    · rw [if_neg hu]
      simp [adjGet, mapGet_mapSet_ne _ _ hu]
  · have hh' : mapHas acc e.source = false := Bool.eq_false_iff.mpr hh
    have hnone : mapGet acc e.source = none := mapGet_eq_none_of_not_has hh'
    simp only [hh', Bool.false_eq_true, if_false]
    rw [mapGet_mapSet_self]
    by_cases hu : u = e.source
    · rw [if_pos hu, hu]
      simp [adjGet, mapGet_mapSet_self, hnone]
    · rw [if_neg hu]
      simp [adjGet, mapGet_mapSet_ne _ _ hu]

theorem mem_adjGet_buildAdjacency (edges : List GraphLink) (u v : String) :
    v ∈ adjGet (buildAdjacency edges) u ↔
      ∃ e ∈ edges, e.source = u ∧ e.target = v := by
  suffices h : ∀ acc, v ∈ adjGet (edges.foldl addAdjacencyEdge acc) u ↔
      (v ∈ adjGet acc u ∨ ∃ e ∈ edges, e.source = u ∧ e.target = v) by
    have h0 := h []
    unfold buildAdjacency
    rw [h0]
    simp [adjGet, mapGet]
  induction edges with
  | nil => intro acc; simp
  | cons e es ih =>
      intro acc
      rw [List.foldl_cons, ih, adjGet_addAdjacencyEdge]
      by_cases hu : u = e.source
      · rw [if_pos hu, mem_setAdd]
        constructor
        · rintro ((h | h) | h)
          · exact Or.inl h
          · exact Or.inr ⟨e, List.mem_cons_self _ _, hu.symm, h.symm⟩
          · obtain ⟨e', he', h1, h2⟩ := h
            exact Or.inr ⟨e', List.mem_cons_of_mem _ he', h1, h2⟩
        · rintro (h | ⟨e', he', h1, h2⟩)
          · exact Or.inl (Or.inl h)
          · rcases List.mem_cons.mp he' with rfl | he''
            · exact Or.inl (Or.inr h2.symm)
            · exact Or.inr ⟨e', he'', h1, h2⟩
      · rw [if_neg hu]
        constructor
        · rintro (h | h)
          · exact Or.inl h
          · obtain ⟨e', he', h1, h2⟩ := h
            exact Or.inr ⟨e', List.mem_cons_of_mem _ he', h1, h2⟩
        · rintro (h | ⟨e', he', h1, h2⟩)
          · exact Or.inl h
          · rcases List.mem_cons.mp he' with rfl | he''
            · exact absurd h1.symm hu
            · exact Or.inr ⟨e', he'', h1, h2⟩

theorem isPath_buildAdjacency_iff (graph : NoteGraph) (p : List String)
    (s t : String) :
    isPath (buildAdjacency graph.edges) p s t ↔ isEdgePath graph p s t := by
  unfold isPath isEdgePath
  constructor
  · rintro ⟨h1, h2, h3⟩
    refine ⟨h1, h2, h3.imp ?_⟩
    intro a b hab
    exact (mem_adjGet_buildAdjacency graph.edges a b).mp hab
  · rintro ⟨h1, h2, h3⟩
    refine ⟨h1, h2, h3.imp ?_⟩
    intro a b hab
    exact (mem_adjGet_buildAdjacency graph.edges a b).mpr hab

/-! ## Claim C4: the main loop lemma and the specification -/

theorem bfsLoop_correct {adj : List (String × List String)} {s t : String}
    {univ : List String}
    (hadjuniv : ∀ u v, v ∈ adjGet adj u → v ∈ univ) :
    ∀ (fuel : ℕ) (st : BFSState), BFSInv adj s t univ st →
      st.queue.length + (univ.length - st.visited.length) < fuel →
      (∀ p, bfsLoop adj t fuel st = some p →
          isPath adj p s t ∧ ∀ q, isPath adj q s t → p.length ≤ q.length) ∧
      (bfsLoop adj t fuel st = none → ¬ ∃ p, isPath adj p s t) := by
  intro fuel
  induction fuel with
  | zero => intro st _ h; omega
  | succ fuel ih =>
      intro st hInv hmeas
      cases hqm : st.queue with
      | nil =>
          have hnone : bfsLoop adj t (fuel + 1) st = none := by
            simp [bfsLoop, hqm]
          refine ⟨fun p hp => absurd (hnone ▸ hp) (by simp), fun _ => ?_⟩
          rintro ⟨p, hp⟩
          have hclosed : ∀ x ∈ st.visited, ∀ y ∈ adjGet adj x,
              y ∈ st.visited := fun x hx =>
            hInv.closed x hx (by rw [hqm]; simp)
          have htv := path_closed hclosed p s t hp hInv.svisited
          have := hInv.tinq htv
          rw [hqm] at this
          cases this
      | cons current rest =>
          by_cases hct : current = t
          · have hres : bfsLoop adj t (fuel + 1) st =
                some (reconstructPath st.parent st.parent.length t []) := by
              simp [bfsLoop, hqm, hct]
            have htv : t ∈ st.visited := hct ▸ hInv.qsubv current
              (by rw [hqm]; exact List.mem_cons_self _ _)
            obtain ⟨n, hchain, hbound, _, hmin⟩ := hInv.depth t htv
            have hpnone := bfsInv_parent_none hInv
            obtain ⟨p, hrec, hpath, hplen⟩ := reconstructPath_spec hpnone
              (fun a b hab => (hInv.pmem a b hab).2) hchain
              st.parent.length hbound []
            constructor
            · intro p' hp'
              rw [hres] at hp'
              have hp'eq : p' = reconstructPath st.parent
                  st.parent.length t [] := (Option.some.inj hp').symm
              rw [hp'eq, hrec, List.append_nil]
              refine ⟨hpath, fun q hq => ?_⟩
              have := hmin q hq
              omega
            · intro hcontra
              rw [hres] at hcontra
              exact Option.noConfusion hcontra
          · have hres : bfsLoop adj t (fuel + 1) st =
                bfsLoop adj t fuel
                  (processNeighbors current (adjGet adj current)
                    { st with queue := rest }) := by
              simp [bfsLoop, hqm, hct]
            obtain ⟨new, hInv', hqlen, hvlen⟩ :=
              bfs_step_inv hadjuniv hInv hqm hct
            have hvle : (processNeighbors current (adjGet adj current)
                { st with queue := rest }).visited.length ≤ univ.length :=
              nodup_subset_length hInv'.vnodup hInv'.vuniv
            have hvle0 : st.visited.length ≤ univ.length :=
              nodup_subset_length hInv.vnodup hInv.vuniv
            have hrlen : st.queue.length = rest.length + 1 := by
              rw [hqm]; rfl
            have hmeas' : (processNeighbors current (adjGet adj current)
                { st with queue := rest }).queue.length +
                (univ.length - (processNeighbors current (adjGet adj current)
                  { st with queue := rest }).visited.length) < fuel := by
              omega
            rw [hres]
            exact ih _ hInv' hmeas'

/-- C4: `findShortestPath` returns `[source]` when `source = target` is
present; `none` when either endpoint is absent from `nodes` or no directed
path along `edges` exists; and any returned path is a directed path along
`edges` from source to target of minimal length.  In particular, when both
endpoints are present and a path exists, it returns one. -/
theorem findShortestPath_spec (graph : NoteGraph) (s t : String) :
    (mapHas graph.nodes s = true → s = t →
      findShortestPath s t graph = some [s]) ∧
    ((mapHas graph.nodes s = false ∨ mapHas graph.nodes t = false) →
      findShortestPath s t graph = none) ∧
    ((¬ ∃ p, isEdgePath graph p s t) → findShortestPath s t graph = none) ∧
    (∀ p, findShortestPath s t graph = some p →
      isEdgePath graph p s t ∧
        ∀ q, isEdgePath graph q s t → p.length ≤ q.length) ∧
    (mapHas graph.nodes s = true → mapHas graph.nodes t = true →
      (∃ p, isEdgePath graph p s t) →
      ∃ p, findShortestPath s t graph = some p) := by
  have hmain : (mapHas graph.nodes s = true ∧ mapHas graph.nodes t = true ∧
      s ≠ t) →
      (∀ p, findShortestPath s t graph = some p →
          isPath (buildAdjacency graph.edges) p s t ∧
          ∀ q, isPath (buildAdjacency graph.edges) q s t →
            p.length ≤ q.length) ∧
      (findShortestPath s t graph = none →
        ¬ ∃ p, isPath (buildAdjacency graph.edges) p s t) := by
    rintro ⟨hs, ht, hst⟩
    have hfs : findShortestPath s t graph =
        bfsLoop (buildAdjacency graph.edges) t (graph.edges.length + 2)
          { queue := [s], visited := [s], parent := [] } := by
      simp [findShortestPath, hs, ht, hst]
    have hadjuniv : ∀ u v, v ∈ adjGet (buildAdjacency graph.edges) u →
        v ∈ s :: graph.edges.map (·.target) := by
      intro u v hv
      obtain ⟨e, he, _, h2⟩ :=
        (mem_adjGet_buildAdjacency graph.edges u v).mp hv
      exact List.mem_cons_of_mem _ (h2 ▸ List.mem_map_of_mem _ he)
    have hInv0 : BFSInv (buildAdjacency graph.edges) s t
        (s :: graph.edges.map (·.target))
        { queue := [s], visited := [s], parent := [] } := by
      refine ⟨?_, ?_, ?_, ?_, ?_, ?_, ?_, ?_, ?_, ?_, ?_⟩
      · exact List.nodup_singleton s
      · exact List.nodup_singleton s
      · intro x hx; exact hx
      · exact List.mem_singleton_self s
      · intro x hx
        obtain rfl : x = s := by simpa using hx
        exact List.mem_cons_self _ _
      · intro x
        constructor
        · intro hx; exact absurd hx (by simp [mapGet])
        · rintro ⟨hx, hxs⟩
          obtain rfl : x = s := by simpa using hx
          exact absurd rfl hxs
      · intro x y hxy
        exact absurd hxy (by simp [mapGet])
      · intro ht'; exact ht'
      · intro x hx hxq
        obtain rfl : x = s := by simpa using hx
        exact absurd (List.mem_singleton_self x) hxq
      · intro x hx
        obtain rfl : x = s := by simpa using hx
        refine ⟨0, .zero, by simp, ⟨[x], isPath_single _ x, rfl⟩, ?_⟩
        intro p hp
        have := isPath_length_pos hp
        omega
      · refine ⟨[0], ?_, List.pairwise_singleton _ _, ?_⟩
        · exact List.Forall₂.cons .zero List.Forall₂.nil
        · intro d hd d0 hd0
          obtain rfl : d = 0 := by simpa using hd
          omega
    have hmeas0 : ([s] : List String).length +
        ((s :: graph.edges.map (·.target)).length - ([s] : List String).length)
          < graph.edges.length + 2 := by
      simp
      omega
    have := bfsLoop_correct hadjuniv (graph.edges.length + 2)
      { queue := [s], visited := [s], parent := [] } hInv0 hmeas0
    rw [← hfs] at this
    exact this
  by_cases hs : mapHas graph.nodes s = true
  · by_cases ht : mapHas graph.nodes t = true
    · by_cases hst : s = t
      · -- source equals target and is present
        have hres : findShortestPath s t graph = some [s] := by
          simp [findShortestPath, hs, ht, hst]
        refine ⟨fun _ _ => hres, ?_, ?_, ?_, ?_⟩
        · rintro (h | h)
          · rw [hs] at h; exact Bool.noConfusion h
          · rw [ht] at h; exact Bool.noConfusion h
        · intro hnop
          exfalso
          apply hnop
          refine ⟨[s], rfl, by rw [hst]; rfl, List.chain'_singleton s⟩
        · intro p hp
          rw [hres] at hp
          obtain rfl : p = [s] := (Option.some.inj hp).symm
          constructor
          · exact ⟨rfl, by rw [hst]; rfl, List.chain'_singleton s⟩
          · intro q hq
            have : 1 ≤ q.length := by
              have hne : q ≠ [] := by
                intro hc; rw [hc] at hq; exact Option.noConfusion hq.1
              exact List.length_pos.mpr hne
            simpa using this
        · intro _ _ _
          exact ⟨[s], hres⟩
      · -- both present, distinct
        have hm := hmain ⟨hs, ht, hst⟩
        refine ⟨fun _ h => absurd h hst, ?_, ?_, ?_, ?_⟩
        · rintro (h | h)
          · rw [hs] at h; exact Bool.noConfusion h
          · rw [ht] at h; exact Bool.noConfusion h
        · intro hnop
          cases hfp : findShortestPath s t graph with
          | none => rfl
          | some p =>
              exfalso
              apply hnop
              obtain ⟨hpath, _⟩ := hm.1 p hfp
              exact ⟨p, (isPath_buildAdjacency_iff graph p s t).mp hpath⟩
        · intro p hp
          obtain ⟨hpath, hminim⟩ := hm.1 p hp
          refine ⟨(isPath_buildAdjacency_iff graph p s t).mp hpath, ?_⟩
          intro q hq
          exact hminim q ((isPath_buildAdjacency_iff graph q s t).mpr hq)
        · rintro _ _ ⟨p, hp⟩
          cases hfp : findShortestPath s t graph with
          | some p' => exact ⟨p', rfl⟩
          | none =>
              exfalso
              exact hm.2 hfp ⟨p, (isPath_buildAdjacency_iff graph p s t).mpr hp⟩
    · -- target absent
      have ht' : mapHas graph.nodes t = false := Bool.eq_false_iff.mpr ht
      have hres : findShortestPath s t graph = none := by
        simp [findShortestPath, ht']
      refine ⟨?_, fun _ => hres, fun _ => hres, ?_, ?_⟩
      · intro _ hst
        exfalso
        rw [hst] at hs
        rw [hs] at ht'
        exact Bool.noConfusion ht'
      · intro p hp
        rw [hres] at hp
        exact Option.noConfusion hp
      · intro _ ht0
        exact absurd ht0 ht
  · -- source absent
    have hs' : mapHas graph.nodes s = false := Bool.eq_false_iff.mpr hs
    have hres : findShortestPath s t graph = none := by
      simp [findShortestPath, hs']
    refine ⟨?_, fun _ => hres, fun _ => hres, ?_, ?_⟩
    · intro hs0 _
      exact absurd hs0 hs
    · intro p hp
      rw [hres] at hp
      exact Option.noConfusion hp
    · intro hs0 _
      exact absurd hs0 hs

/-- Witness for C4: on `a→[b,c], b→[c], c→[]` the BFS result `[a, c]` is a
directed edge path of minimal length. -/
theorem findShortestPath_spec_witness :
    isEdgePath (buildNoteGraph [⟨"a", none, ["b", "c"]⟩, ⟨"b", none, ["c"]⟩,
        ⟨"c", none, []⟩] {}) ["a", "c"] "a" "c" ∧
    ∀ q, isEdgePath (buildNoteGraph [⟨"a", none, ["b", "c"]⟩,
        ⟨"b", none, ["c"]⟩, ⟨"c", none, []⟩] {}) q "a" "c" →
      (["a", "c"] : List String).length ≤ q.length :=
  (findShortestPath_spec (buildNoteGraph [⟨"a", none, ["b", "c"]⟩,
      ⟨"b", none, ["c"]⟩, ⟨"c", none, []⟩] {}) "a" "c").2.2.2.1
    ["a", "c"] (by decide)

/-! ## Claim C6: the directed adjacency of the analytics engine -/

theorem mapSet_same {β : Type} {m : List (String × β)} {k : String}
    {v : β} (h : mapGet m k = some v) : mapSet m k v = m := by
  induction m with
  | nil => exact absurd h (by simp [mapGet])
  | cons p m ih =>
      by_cases hk : p.1 = k
      · simp only [mapGet, if_pos hk] at h
        obtain ⟨a, b⟩ := p
        obtain rfl : a = k := hk
        obtain rfl : b = v := by simpa using h
        simp [mapSet]
      · simp only [mapGet, if_neg hk] at h
        simp [mapSet, hk, ih h]

theorem adjGet_addDirectedEdge (adj : List (String × List String))
    (e : GraphLink) (u : String) :
    adjGet (addDirectedEdge adj e) u =
      if u = e.source ∧ mapHas adj e.source = true then
        adjGet adj u ++ [e.target]
      else adjGet adj u := by
  unfold addDirectedEdge
  cases hg : mapGet adj e.source with
  | none =>
      have := mapHas_false_of_none hg
      simp [this]
  | some list =>
      have hh := mapHas_of_mapGet_eq_some hg
      by_cases hu : u = e.source
      · rw [hu]
        simp [adjGet, mapGet_mapSet_self, hg, hh]
      · have : ¬ (u = e.source ∧ mapHas adj e.source = true) :=
          fun hc => hu hc.1
        simp only [this, if_false]
        simp [adjGet, mapGet_mapSet_ne _ _ hu]

theorem mapHas_addDirectedEdge (adj : List (String × List String))
    (e : GraphLink) (u : String) :
    mapHas (addDirectedEdge adj e) u = mapHas adj u := by
  unfold addDirectedEdge
  cases hg : mapGet adj e.source with
  | none => rfl
  | some list =>
      exact mapHas_congr_keys
        (keys_mapSet_of_has _ (mapHas_of_mapGet_eq_some hg)) u

theorem adjGet_initNodes (nodes : List (String × GraphNode)) :
    ∀ (acc : List (String × List String)) (u : String),
      (∀ x s, mapGet acc x = some s → s = []) →
      adjGet (nodes.foldl (fun adj p => mapSet adj p.1 ([] : List String))
        acc) u = [] := by
  induction nodes with
  | nil =>
      intro acc u hacc
      cases hg : mapGet acc u with
      | none => simp [adjGet, hg]
      | some s => simp [adjGet, hg, hacc u s hg]
  | cons p nodes ih =>
      intro acc u hacc
      rw [List.foldl_cons]
      refine ih _ u ?_
      intro x s hx
      by_cases hxp : x = p.1
      · rw [hxp, mapGet_mapSet_self] at hx
        exact (Option.some.inj hx).symm
      · rw [mapGet_mapSet_ne _ _ hxp] at hx
        exact hacc x s hx

theorem mapHas_initNodes (nodes : List (String × GraphNode)) :
    ∀ (acc : List (String × List String)) (u : String),
      (mapHas (nodes.foldl (fun adj p => mapSet adj p.1 ([] : List String))
          acc) u = true ↔
        mapHas acc u = true ∨ u ∈ keys nodes) := by
  induction nodes with
  | nil => intro acc u; simp [keys]
  | cons p nodes ih =>
      intro acc u
      rw [List.foldl_cons, ih]
      rw [mapHas_mapSet]
      constructor
      · rintro (h | h)
        · rw [Bool.or_eq_true] at h
          rcases h with h | h
          · exact Or.inl h
          · refine Or.inr ?_
            simp only [keys, List.map_cons, List.mem_cons]
            exact Or.inl (by simpa using h)
        · exact Or.inr (by
            simp only [keys, List.map_cons, List.mem_cons]
            exact Or.inr h)
      · rintro (h | h)
        · exact Or.inl (by rw [h]; simp)
        · simp only [keys, List.map_cons, List.mem_cons] at h
          rcases h with h | h
          · exact Or.inl (by simp [h])
          · exact Or.inr h

theorem mem_adjGet_foldDirected (es : List GraphLink) :
    ∀ (acc : List (String × List String)),
      (∀ e ∈ es, mapHas acc e.source = true) →
      ∀ u v, (v ∈ adjGet (es.foldl addDirectedEdge acc) u ↔
        (v ∈ adjGet acc u ∨ ∃ e ∈ es, e.source = u ∧ e.target = v)) := by
  induction es with
  | nil => intro acc _ u v; simp
  | cons e es ih =>
      intro acc hsrc u v
      rw [List.foldl_cons]
      have hsrc' : ∀ e' ∈ es, mapHas (addDirectedEdge acc e) e'.source =
          true := by
        intro e' he'
        rw [mapHas_addDirectedEdge]
        exact hsrc e' (List.mem_cons_of_mem _ he')
      rw [ih _ hsrc', adjGet_addDirectedEdge]
      have hse : mapHas acc e.source = true := hsrc e (List.mem_cons_self _ _)
      by_cases hu : u = e.source
      · rw [if_pos ⟨hu, hse⟩]
        constructor
        · rintro (h | h)
          · rcases List.mem_append.mp h with h' | h'
            · exact Or.inl h'
            · exact Or.inr ⟨e, List.mem_cons_self _ _, hu.symm,
                (show v = e.target by simpa using h').symm⟩
          · obtain ⟨e', he', h1, h2⟩ := h
            exact Or.inr ⟨e', List.mem_cons_of_mem _ he', h1, h2⟩
        · rintro (h | ⟨e', he', h1, h2⟩)
          · exact Or.inl (List.mem_append_left _ h)
          · rcases List.mem_cons.mp he' with rfl | he''
            · exact Or.inl (List.mem_append_right _ (by simp [h2]))
            · exact Or.inr ⟨e', he'', h1, h2⟩
      · have : ¬ (u = e.source ∧ mapHas acc e.source = true) :=
          fun hc => hu hc.1
        rw [if_neg this]
        constructor
        · rintro (h | h)
          · exact Or.inl h
          · obtain ⟨e', he', h1, h2⟩ := h
            exact Or.inr ⟨e', List.mem_cons_of_mem _ he', h1, h2⟩
        · rintro (h | ⟨e', he', h1, h2⟩)
          · exact Or.inl h
          · rcases List.mem_cons.mp he' with rfl | he''
            · exact absurd h1.symm hu
            · exact Or.inr ⟨e', he'', h1, h2⟩

theorem mem_adjGet_buildDirectedAdjacency (g : NoteGraph)
    (hsrc : ∀ e ∈ g.edges, e.source ∈ keys g.nodes) (u v : String) :
    v ∈ adjGet (buildDirectedAdjacency g) u ↔
      ∃ e ∈ g.edges, e.source = u ∧ e.target = v := by
  unfold buildDirectedAdjacency
  have hsrc0 : ∀ e ∈ g.edges,
      mapHas (g.nodes.foldl
        (fun adj p => mapSet adj p.1 ([] : List String)) []) e.source =
        true := by
    intro e he
    rw [mapHas_initNodes]
    exact Or.inr (hsrc e he)
  rw [mem_adjGet_foldDirected g.edges _ hsrc0 u v]
  rw [adjGet_initNodes g.nodes [] u (by intro x s hx; simp [mapGet] at hx)]
  simp

theorem popLoop_last {stack : List String} {v : String}
    (hlast : stack.getLast? = some v) (comp0 : List String) :
    popLoop v stack.length stack comp0 = (stack.dropLast, comp0 ++ [v]) := by
  cases hl : stack.length with
  | zero =>
      rw [List.length_eq_zero] at hl
      rw [hl] at hlast
      exact Option.noConfusion hlast
  | succ n =>
      simp [popLoop, hlast]

/-! ## Claim C6, acyclic case: in an acyclic graph `lowLink` never drops
below the index, every `visit` pops exactly its own singleton component,
and the component count equals the number of indexed nodes. -/

/-- Invariant of the Tarjan state in the acyclic case. -/
structure TAInv (univ : List String) (st : TarjanState) : Prop where
  lowEq : st.lowLink = st.indexMap
  keysnd : (keys st.indexMap).Nodup
  keysuniv : ∀ x, mapHas st.indexMap x = true → x ∈ univ
  idxcount : st.index = st.indexMap.length
  stackOn : st.onStack = st.stack
  stacknd : st.stack.Nodup
  stackIdx : ∀ x ∈ st.stack, mapHas st.indexMap x = true

/-- What one complete acyclic `visit` guarantees. -/
def VisitPost (univ : List String) (st st' : TarjanState) (v : String) :
    Prop :=
  TAInv univ st' ∧ st'.stack = st.stack ∧ st'.onStack = st.onStack ∧
  mapHas st'.indexMap v = true ∧
  (∀ x, mapHas st.indexMap x = true →
    mapGet st'.indexMap x = mapGet st.indexMap x) ∧
  (st'.components.length + st.indexMap.length =
    st.components.length + st'.indexMap.length) ∧
  st.indexMap.length < st'.indexMap.length ∧
  (∀ x i, mapGet st'.indexMap x = some i →
    mapGet st.indexMap x = some i ∨ st.index ≤ i)

/-- Invariant of the neighbour fold inside an acyclic `visit` of `v`
(`st` being the state before `v` was pushed). -/
structure TAFold (univ : List String) (st : TarjanState) (v : String)
    (s : TarjanState) : Prop where
  inv : TAInv univ s
  stack_eq : s.stack = st.stack ++ [v]
  ventry : mapGet s.indexMap v = some st.index
  old : ∀ x, mapHas st.indexMap x = true →
    mapGet s.indexMap x = mapGet st.indexMap x
  growth : st.indexMap.length + 1 ≤ s.indexMap.length
  comps : s.components.length + (st.indexMap.length + 1) =
    st.components.length + s.indexMap.length
  newidx : ∀ x i, mapGet s.indexMap x = some i →
    mapGet st.indexMap x = some i ∨ st.index ≤ i

theorem mapHas_of_get_agree {β : Type} {m m' : List (String × β)}
    {x : String}
    (hagree : mapGet m' x = mapGet m x) (h : mapHas m x = true) :
    mapHas m' x = true := by
  obtain ⟨w, hw⟩ := mapGet_isSome_of_has h
  exact mapHas_of_mapGet_eq_some (hagree.trans hw)

theorem tarjanFold_acyclic {adj : List (String × List String)}
    {univ : List String}
    (hclosure : ∀ u w, w ∈ adjGet adj u → w ∈ univ)
    (hacyc : ∀ u p, isPath adj p u u → p.length < 2)
    (fuel : ℕ)
    (ihvisit : ∀ (s : TarjanState) (w : String), TAInv univ s →
      mapHas s.indexMap w = false → w ∈ univ →
      univ.length ≤ s.indexMap.length + fuel →
      (∀ u ∈ s.stack, ∃ p, isPath adj p u w) →
      VisitPost univ s (visit adj fuel s w) w)
    {st : TarjanState} {v : String} (hstInv : TAInv univ st)
    (hbound : univ.length ≤ st.indexMap.length + (fuel + 1))
    (hreach : ∀ u ∈ st.stack, ∃ p, isPath adj p u v) :
    ∀ (ns : List String) (s : TarjanState),
      (∀ w ∈ ns, w ∈ adjGet adj v) → TAFold univ st v s →
      TAFold univ st v (ns.foldl (tarjanStep (visit adj fuel) v) s) := by
  intro ns
  induction ns with
  | nil => intro s _ hf; exact hf
  | cons w ns ihns =>
      intro s hws hf
      rw [List.foldl_cons]
      refine ihns _ (fun w' hw' => hws w' (List.mem_cons_of_mem _ hw')) ?_
      have hw : w ∈ adjGet adj v := hws w (List.mem_cons_self _ _)
      unfold tarjanStep
      by_cases hidx : mapHas s.indexMap w = false
      · rw [if_pos hidx]
        have hwuniv : w ∈ univ := hclosure v w hw
        have hbound' : univ.length ≤ s.indexMap.length + fuel := by
          have := hf.growth
          omega
        have hreach' : ∀ u ∈ s.stack, ∃ p, isPath adj p u w := by
          intro u hu
          rw [hf.stack_eq] at hu
          rcases List.mem_append.mp hu with hu' | hu'
          · obtain ⟨p, hp⟩ := hreach u hu'
            exact ⟨p ++ [w], isPath_snoc hp hw⟩
          · obtain rfl : u = v := by simpa using hu'
            exact ⟨[u] ++ [w], isPath_snoc (isPath_single adj u) hw⟩
        obtain ⟨hinv', hstack', honstack', hwidx', hold', hcomps', hgrow',
          hnew'⟩ := ihvisit s w hf.inv hidx hwuniv hbound' hreach'
        have hvs : mapGet (visit adj fuel s w).indexMap v = some st.index :=
          by
          rw [hold' v (mapHas_of_mapGet_eq_some hf.ventry)]
          exact hf.ventry
        have hlowv : mapGet (visit adj fuel s w).lowLink v = some st.index :=
          by rw [hinv'.lowEq]; exact hvs
        obtain ⟨iw, hiw⟩ := mapGet_isSome_of_has hwidx'
        have hiwlow : mapGet (visit adj fuel s w).lowLink w = some iw := by
          rw [hinv'.lowEq]; exact hiw
        have hstle : st.index ≤ iw := by
          rcases hnew' w iw hiw with h | h
          · rw [mapGet_eq_none_of_not_has hidx] at h
            exact Option.noConfusion h
          · have h1 : s.index = s.indexMap.length := hf.inv.idxcount
            have h2 : st.index = st.indexMap.length := hstInv.idxcount
            have := hf.growth
            omega
        have hupd : { visit adj fuel s w with
            lowLink := mapSet (visit adj fuel s w).lowLink v
              (min ((mapGet (visit adj fuel s w).lowLink v).getD 0)
                ((mapGet (visit adj fuel s w).lowLink w).getD 0)) } =
            visit adj fuel s w := by
          rw [hlowv, hiwlow]
          simp only [Option.getD_some]
          rw [Nat.min_eq_left hstle, mapSet_same hlowv]
        rw [hupd]
        refine ⟨hinv', by rw [hstack', hf.stack_eq], hvs, ?_, ?_, ?_, ?_⟩
        · intro x hx
          rw [hold' x (mapHas_of_get_agree (hf.old x hx) hx)]
          exact hf.old x hx
        · have := hf.growth
          omega
        · have h1 := hcomps'
          have h2 := hf.comps
          omega
        · intro x i hxi
          rcases hnew' x i hxi with h | h
          · rcases hf.newidx x i h with h' | h'
            · exact Or.inl h'
            · exact Or.inr h'
          · have h1 : s.index = s.indexMap.length := hf.inv.idxcount
            have h2 : st.index = st.indexMap.length := hstInv.idxcount
            have := hf.growth
            exact Or.inr (by omega)
      · rw [if_neg hidx]
        by_cases hon : w ∈ s.onStack
        · exfalso
          have honstack : s.onStack = st.stack ++ [v] := by
            rw [hf.inv.stackOn, hf.stack_eq]
          rw [honstack] at hon
          rcases List.mem_append.mp hon with h | h
          · obtain ⟨p, hp⟩ := hreach w h
            have hcyc := isPath_snoc hp hw
            have hlt := hacyc w (p ++ [w]) hcyc
            have hpos := isPath_length_pos hp
            rw [List.length_append, List.length_singleton] at hlt
            omega
          · obtain rfl : w = v := by simpa using h
            have hcyc : isPath adj ([w] ++ [w]) w w :=
              isPath_snoc (isPath_single adj w) hw
            have := hacyc w ([w] ++ [w]) hcyc
            simp at this
        · rw [if_neg hon]
          exact hf

theorem visit_acyclic {adj : List (String × List String)}
    {univ : List String}
    (hclosure : ∀ u w, w ∈ adjGet adj u → w ∈ univ)
    (hacyc : ∀ u p, isPath adj p u u → p.length < 2) :
    ∀ (fuel : ℕ) (st : TarjanState) (v : String), TAInv univ st →
      mapHas st.indexMap v = false → v ∈ univ →
      univ.length ≤ st.indexMap.length + fuel →
      (∀ u ∈ st.stack, ∃ p, isPath adj p u v) →
      VisitPost univ st (visit adj fuel st v) v := by
  intro fuel
  induction fuel with
  | zero =>
      intro st v hInv hvnew hvuniv hbound _
      exfalso
      have hvkeys : v ∉ keys st.indexMap := by
        intro hc
        rw [← mapHas_iff_mem_keys] at hc
        rw [hvnew] at hc
        exact Bool.noConfusion hc
      have hnd : (v :: keys st.indexMap).Nodup :=
        List.nodup_cons.mpr ⟨hvkeys, hInv.keysnd⟩
      have hsub : ∀ x ∈ v :: keys st.indexMap, x ∈ univ := by
        intro x hx
        rcases List.mem_cons.mp hx with rfl | hx'
        · exact hvuniv
        · exact hInv.keysuniv x ((mapHas_iff_mem_keys _ _).mpr hx')
      have hle := nodup_subset_length hnd hsub
      have hkl : (keys st.indexMap).length = st.indexMap.length := by
        simp [keys]
      rw [List.length_cons, hkl] at hle
      omega
  | succ fuel ih =>
      intro st v hInv hvnew hvuniv hbound hreach
      have hvstack : v ∉ st.stack := fun hc => by
        rw [hInv.stackIdx v hc] at hvnew
        exact Bool.noConfusion hvnew
      have hstep : visit adj (fuel + 1) st v =
          (fun st2 : TarjanState =>
            if mapGet st2.lowLink v = mapGet st2.indexMap v then
              { st2 with
                  stack := (popLoop v st2.stack.length st2.stack []).1
                  onStack := st2.onStack.filter
                    (fun x => ¬ x ∈ (popLoop v st2.stack.length st2.stack []).2)
                  components := st2.components ++
                    [(popLoop v st2.stack.length st2.stack []).2] }
            else st2)
          ((adjGet adj v).foldl (tarjanStep (visit adj fuel) v)
            { st with
                indexMap := mapSet st.indexMap v st.index
                lowLink := mapSet st.lowLink v st.index
                index := st.index + 1
                stack := st.stack ++ [v]
                onStack := setAdd st.onStack v }) := rfl
      have hmaplen : (mapSet st.indexMap v st.index).length =
          st.indexMap.length + 1 := mapSet_length_of_not_has _ hvnew
      have hf1 : TAFold univ st v
          { st with
              indexMap := mapSet st.indexMap v st.index
              lowLink := mapSet st.lowLink v st.index
              index := st.index + 1
              stack := st.stack ++ [v]
              onStack := setAdd st.onStack v } := by
        refine ⟨⟨?_, ?_, ?_, ?_, ?_, ?_, ?_⟩, rfl, ?_, ?_, ?_, ?_, ?_⟩
        · show mapSet st.lowLink v st.index = mapSet st.indexMap v st.index
          rw [hInv.lowEq]
        · exact nodup_keys_mapSet _ hInv.keysnd
        · intro x hx
          show x ∈ univ
          rw [show ({ st with
              indexMap := mapSet st.indexMap v st.index
              lowLink := mapSet st.lowLink v st.index
              index := st.index + 1
              stack := st.stack ++ [v]
              onStack := setAdd st.onStack v } : TarjanState).indexMap =
            mapSet st.indexMap v st.index from rfl] at hx
          rw [mapHas_mapSet] at hx
          rw [Bool.or_eq_true] at hx
          rcases hx with hx | hx
          · exact hInv.keysuniv x hx
          · obtain rfl : x = v := by simpa using hx
            exact hvuniv
        · show st.index + 1 = (mapSet st.indexMap v st.index).length
          rw [hmaplen, hInv.idxcount]
        · show setAdd st.onStack v = st.stack ++ [v]
          rw [hInv.stackOn]
          unfold setAdd
          rw [if_neg hvstack]
        · show (st.stack ++ [v]).Nodup
          rw [List.nodup_append]
          exact ⟨hInv.stacknd, List.nodup_singleton v,
            fun a ha hc => hvstack ((by simpa using hc : a = v) ▸ ha)⟩
        · intro x hx
          show mapHas (mapSet st.indexMap v st.index) x = true
          rw [mapHas_mapSet, Bool.or_eq_true]
          rcases List.mem_append.mp hx with hx' | hx'
          · exact Or.inl (hInv.stackIdx x hx')
          · obtain rfl : x = v := by simpa using hx'
            exact Or.inr (by simp)
        · show mapGet (mapSet st.indexMap v st.index) v = some st.index
          exact mapGet_mapSet_self _ _ _
        · intro x hx
          have hxv : x ≠ v := fun hc => by
            rw [hc] at hx
            rw [hvnew] at hx
            exact Bool.noConfusion hx
          show mapGet (mapSet st.indexMap v st.index) x = _
          exact mapGet_mapSet_ne _ _ hxv
        · show st.indexMap.length + 1 ≤ (mapSet st.indexMap v st.index).length
          omega
        · show st.components.length + (st.indexMap.length + 1) =
            st.components.length + (mapSet st.indexMap v st.index).length
          omega
        · intro x i hxi
          show mapGet st.indexMap x = some i ∨ st.index ≤ i
          by_cases hxv : x = v
          · rw [hxv, mapGet_mapSet_self] at hxi
            obtain rfl : st.index = i := by simpa using hxi
            exact Or.inr le_rfl
          · rw [mapGet_mapSet_ne _ _ hxv] at hxi
            exact Or.inl hxi
      have hf2 := tarjanFold_acyclic hclosure hacyc fuel ih hInv hbound
        hreach (adjGet adj v) _ (fun w hw => hw) hf1
      rw [hstep]
      set st2 := (adjGet adj v).foldl (tarjanStep (visit adj fuel) v)
        { st with
            indexMap := mapSet st.indexMap v st.index
            lowLink := mapSet st.lowLink v st.index
            index := st.index + 1
            stack := st.stack ++ [v]
            onStack := setAdd st.onStack v } with hst2
      simp only []
      rw [if_pos (by rw [hf2.inv.lowEq])]
      have hlastv : st2.stack.getLast? = some v := by
        rw [hf2.stack_eq]
        exact List.getLast?_concat _
      have hpop : popLoop v st2.stack.length st2.stack [] =
          (st2.stack.dropLast, [] ++ [v]) := popLoop_last hlastv []
      have hdrop : st2.stack.dropLast = st.stack := by
        rw [hf2.stack_eq]
        exact List.dropLast_concat
      rw [hpop, hdrop]
      have honfilter : st2.onStack.filter
          (fun x => ¬ x ∈ ([] ++ [v] : List String)) = st.stack := by
        rw [hf2.inv.stackOn, hf2.stack_eq, List.filter_append]
        have h1 : st.stack.filter
            (fun x => ¬ x ∈ ([] ++ [v] : List String)) = st.stack := by
          apply List.filter_eq_self.mpr
          intro a ha
          simp only [List.nil_append, List.mem_singleton, decide_eq_true_eq,
            decide_not]
          rw [Bool.not_eq_true']
          rw [decide_eq_false_iff_not]
          exact fun hc => hvstack (hc ▸ ha)
        have h2 : ([v] : List String).filter
            (fun x => ¬ x ∈ ([] ++ [v] : List String)) = [] := by
          simp
        rw [h1, h2, List.append_nil]
      rw [honfilter]
      -- assemble the post-conditions
      have hvidx2 : mapHas st2.indexMap v = true :=
        mapHas_of_mapGet_eq_some hf2.ventry
      refine ⟨⟨hf2.inv.lowEq, hf2.inv.keysnd, hf2.inv.keysuniv,
          hf2.inv.idxcount, ?_, hInv.stacknd, ?_⟩, rfl, ?_, hvidx2,
          hf2.old, ?_, ?_, hf2.newidx⟩
      · show st.stack = st.stack
        rfl
      · intro x hx
        exact mapHas_of_get_agree (hf2.old x (hInv.stackIdx x hx))
          (hInv.stackIdx x hx)
      · show st.stack = st.onStack
        rw [hInv.stackOn]
      · show (st2.components ++ [[] ++ [v]]).length + st.indexMap.length =
          st.components.length + st2.indexMap.length
        rw [List.length_append]
        have := hf2.comps
        simp only [List.length_singleton]
        omega
      · show st.indexMap.length < st2.indexMap.length
        have := hf2.growth
        omega

theorem sccFold_acyclic {adj : List (String × List String)}
    {univ : List String}
    (hclosure : ∀ u w, w ∈ adjGet adj u → w ∈ univ)
    (hacyc : ∀ u p, isPath adj p u u → p.length < 2)
    (fuel : ℕ) (hfuel : univ.length ≤ fuel) :
    ∀ (ps : List (String × GraphNode)) (st : TarjanState),
      TAInv univ st → st.stack = [] →
      st.components.length = st.indexMap.length →
      (∀ p ∈ ps, p.1 ∈ univ) →
      TAInv univ (ps.foldl (sccOuterStep adj fuel) st) ∧
      (ps.foldl (sccOuterStep adj fuel) st).stack = [] ∧
      (ps.foldl (sccOuterStep adj fuel) st).components.length =
        (ps.foldl (sccOuterStep adj fuel) st).indexMap.length ∧
      (∀ x, mapHas st.indexMap x = true →
        mapHas (ps.foldl (sccOuterStep adj fuel) st).indexMap x = true) ∧
      (∀ p ∈ ps,
        mapHas (ps.foldl (sccOuterStep adj fuel) st).indexMap p.1 = true) := by
  intro ps
  induction ps with
  | nil =>
      intro st h1 h2 h3 _
      exact ⟨h1, h2, h3, fun x hx => hx, fun p hp => absurd hp (by simp)⟩
  | cons p ps ih =>
      intro st hInv hstack hcomps hmem
      rw [List.foldl_cons]
      by_cases hidx : mapHas st.indexMap p.1 = false
      · have hstep : sccOuterStep adj fuel st p = visit adj fuel st p.1 := by
          unfold sccOuterStep
          rw [if_pos hidx]
        rw [hstep]
        obtain ⟨hinv', hstack', _, hpidx', hold', hcomps', _, _⟩ :=
          visit_acyclic hclosure hacyc fuel st p.1 hInv hidx
            (hmem p (List.mem_cons_self _ _)) (by omega)
            (by rw [hstack]; intro u hu; cases hu)
        have hstack'' : (visit adj fuel st p.1).stack = [] := by
          rw [hstack']; exact hstack
        have hcomps'' : (visit adj fuel st p.1).components.length =
            (visit adj fuel st p.1).indexMap.length := by omega
        obtain ⟨r1, r2, r3, r4, r5⟩ := ih (visit adj fuel st p.1) hinv'
          hstack'' hcomps''
          (fun q hq => hmem q (List.mem_cons_of_mem _ hq))
        refine ⟨r1, r2, r3, ?_, ?_⟩
        · intro x hx
          exact r4 x (mapHas_of_get_agree (hold' x hx) hx)
        · intro q hq
          rcases List.mem_cons.mp hq with rfl | hq'
          · exact r4 q.1 hpidx'
          · exact r5 q hq'
      · have hidx' : mapHas st.indexMap p.1 = true :=
          Bool.eq_true_of_ne_false (by
            intro hc; exact hidx hc)
        have hstep : sccOuterStep adj fuel st p = st := by
          unfold sccOuterStep
          rw [if_neg (by rw [hidx']; simp)]
        rw [hstep]
        obtain ⟨r1, r2, r3, r4, r5⟩ := ih st hInv hstack hcomps
          (fun q hq => hmem q (List.mem_cons_of_mem _ hq))
        refine ⟨r1, r2, r3, r4, ?_⟩
        intro q hq
        rcases List.mem_cons.mp hq with rfl | hq'
        · exact r4 q.1 hidx'
        · exact r5 q hq'

/-- In an acyclic graph with well-formed node and edge sets, Tarjan's
component count equals the node count: every node is its own singleton
component. -/
theorem connectedComponents_acyclic (g : NoteGraph)
    (hnd : (keys g.nodes).Nodup)
    (hsrc : ∀ e ∈ g.edges, e.source ∈ keys g.nodes)
    (htgt : ∀ e ∈ g.edges, e.target ∈ keys g.nodes)
    (hacyc : ∀ u p, isEdgePath g p u u → p.length < 2) :
    connectedComponents g = g.nodes.length := by
  have hadjpath : ∀ u p, isPath (buildDirectedAdjacency g) p u u →
      p.length < 2 := by
    intro u p hp
    apply hacyc u p
    obtain ⟨h1, h2, h3⟩ := hp
    exact ⟨h1, h2, h3.imp (fun a b hab =>
      (mem_adjGet_buildDirectedAdjacency g hsrc a b).mp hab)⟩
  have hclosure : ∀ u w, w ∈ adjGet (buildDirectedAdjacency g) u →
      w ∈ keys g.nodes := by
    intro u w hw
    obtain ⟨e, he, _, h2⟩ :=
      (mem_adjGet_buildDirectedAdjacency g hsrc u w).mp hw
    exact h2 ▸ htgt e he
  have hInit : TAInv (keys g.nodes) ⟨[], [], [], [], [], 0⟩ := by
    refine ⟨rfl, by simp [keys], ?_, rfl, rfl, by simp, ?_⟩
    · intro x hx
      exact absurd hx (by simp [mapHas])
    · intro x hx
      cases hx
  have hkeyslen : (keys g.nodes).length = g.nodes.length := by simp [keys]
  obtain ⟨hresInv, _, hcomps, _, hall⟩ := sccFold_acyclic hclosure hadjpath
    (g.nodes.length + g.edges.length + 1) (by omega) g.nodes
    ⟨[], [], [], [], [], 0⟩ hInit rfl rfl
    (fun p hp => List.mem_map_of_mem _ hp)
  have hres : connectedComponents g =
      (g.nodes.foldl (sccOuterStep (buildDirectedAdjacency g)
        (g.nodes.length + g.edges.length + 1))
        ⟨[], [], [], [], [], 0⟩).components.length := rfl
  rw [hres, hcomps]
  have hle1 : (g.nodes.foldl (sccOuterStep (buildDirectedAdjacency g)
      (g.nodes.length + g.edges.length + 1))
      ⟨[], [], [], [], [], 0⟩).indexMap.length ≤ g.nodes.length := by
    rw [← hkeyslen]
    have := nodup_subset_length hresInv.keysnd
      (fun x hx => hresInv.keysuniv x ((mapHas_iff_mem_keys _ _).mpr hx))
    simpa [keys] using this
  have hle2 : g.nodes.length ≤
      (g.nodes.foldl (sccOuterStep (buildDirectedAdjacency g)
        (g.nodes.length + g.edges.length + 1))
        ⟨[], [], [], [], [], 0⟩).indexMap.length := by
    rw [← hkeyslen]
    refine le_trans (le_of_eq rfl) ?_
    have hsub : ∀ x ∈ keys g.nodes, x ∈ keys
        (g.nodes.foldl (sccOuterStep (buildDirectedAdjacency g)
          (g.nodes.length + g.edges.length + 1))
          ⟨[], [], [], [], [], 0⟩).indexMap := by
      intro x hx
      obtain ⟨q, hq, rfl⟩ := List.mem_map.mp hx
      exact (mapHas_iff_mem_keys _ _).mp (hall q hq)
    have := nodup_subset_length hnd hsub
    simpa [keys] using this
  omega

/-! ## Claim C6, cycle case: on a single directed cycle through all nodes,
Tarjan indexes the whole cycle in one recursive descent, the back edge to
the start drags the low-links down to 0, and the start's pop collects the
entire stack as one component. -/

/-- The edge list of a single directed cycle visiting `vs` in order:
`vs[i] → vs[(i+1) % n]` for every position `i`. -/
def cycleEdges (vs : List String) : List GraphLink :=
  (vs.zip (vs.rotate 1)).map
    (fun p => { source := p.1, target := p.2 })

/-- The Tarjan `indexMap` after the first `k` nodes of `vs` were pushed. -/
def idxm (vs : List String) (k : Nat) : List (String × Nat) :=
  (List.range k).map (fun j => (vs.getD j "", j))

/-- The Tarjan `lowLink` map once every node from position `k` onwards has
had its low-link dragged down to 0 by the cycle's back edge. -/
def lowm (vs : List String) (k : Nat) : List (String × Nat) :=
  (List.range vs.length).map
    (fun j => (vs.getD j "", if j < k then j else 0))

theorem getD_inj_of_nodup {vs : List String} (hnd : vs.Nodup) {a b : Nat}
    (ha : a < vs.length) (hb : b < vs.length)
    (h : vs.getD a "" = vs.getD b "") : a = b := by
  rw [List.getD_eq_getElem _ _ ha, List.getD_eq_getElem _ _ hb] at h
  exact hnd.getElem_inj_iff.mp h

theorem getD_mem {vs : List String} {j : Nat} (hj : j < vs.length) :
    vs.getD j "" ∈ vs := by
  rw [List.getD_eq_getElem _ _ hj]
  exact List.getElem_mem hj

theorem mapGet_map_of_mem {β γ : Type} (l : List γ) (kf : γ → String)
    (vf : γ → β)
    (hinj : ∀ a ∈ l, ∀ b ∈ l, kf a = kf b → a = b) :
    ∀ x ∈ l, mapGet (l.map (fun j => (kf j, vf j))) (kf x) = some (vf x) := by
  induction l with
  | nil => intro x hx; cases hx
  | cons a l ih =>
      intro x hx
      by_cases h : kf a = kf x
      · have hax : a = x := hinj a (List.mem_cons_self _ _) x hx h
        subst hax
        simp [mapGet]
      · rcases List.mem_cons.mp hx with rfl | hx'
        · exact absurd rfl h
        · simp only [List.map_cons, mapGet, if_neg h]
          exact ih (fun a' ha' b' hb' =>
            hinj a' (List.mem_cons_of_mem _ ha') b'
              (List.mem_cons_of_mem _ hb')) x hx'

theorem mapGet_map_of_not_mem {β γ : Type} (l : List γ) (kf : γ → String)
    (vf : γ → β) (x : String) (hx : ∀ a ∈ l, ¬ kf a = x) :
    mapGet (l.map (fun j => (kf j, vf j))) x = none := by
  induction l with
  | nil => rfl
  | cons a l ih =>
      simp only [List.map_cons, mapGet,
        if_neg (hx a (List.mem_cons_self _ _))]
      exact ih (fun a' ha' => hx a' (List.mem_cons_of_mem _ ha'))

theorem mapSet_not_has_append {β : Type} {m : List (String × β)}
    {k : String} (h : mapHas m k = false) (v : β) :
    mapSet m k v = m ++ [(k, v)] := by
  induction m with
  | nil => rfl
  | cons p m ih =>
      simp only [mapHas, Bool.or_eq_false_iff, decide_eq_false_iff_not] at h
      simp [mapSet, h.1, ih h.2]

theorem mapSet_map {β γ : Type} [DecidableEq γ] (l : List γ)
    (kf : γ → String) (vf : γ → β)
    (hinj : ∀ a ∈ l, ∀ b ∈ l, kf a = kf b → a = b) (hnd : l.Nodup) :
    ∀ x ∈ l, ∀ v, mapSet (l.map (fun j => (kf j, vf j))) (kf x) v =
      l.map (fun j => (kf j, if j = x then v else vf j)) := by
  induction l with
  | nil => intro x hx; cases hx
  | cons a l ih =>
      intro x hx v
      rw [List.nodup_cons] at hnd
      by_cases h : kf a = kf x
      · have hax : a = x := hinj a (List.mem_cons_self _ _) x hx h
        subst hax
        simp only [List.map_cons, mapSet, eq_self_iff_true, if_true]
        congr 1
        refine List.map_congr_left ?_
        intro j hj
        have hja : ¬ j = a := fun hc => hnd.1 (hc ▸ hj)
        simp [hja]
      · have hax : ¬ a = x := fun hc => h (congrArg kf hc)
        rcases List.mem_cons.mp hx with rfl | hx'
        · exact absurd rfl hax
        · simp only [List.map_cons, mapSet, if_neg h]
          rw [if_neg hax]
          congr 1
          exact ih (fun a' ha' b' hb' =>
            hinj a' (List.mem_cons_of_mem _ ha') b'
              (List.mem_cons_of_mem _ hb')) hnd.2 x hx' v

theorem mapGet_idxm {vs : List String} (hnd : vs.Nodup) {k j : Nat}
    (hj : j < k) (hk : k ≤ vs.length) :
    mapGet (idxm vs k) (vs.getD j "") = some j := by
  refine mapGet_map_of_mem _ _ _ ?_ j (List.mem_range.mpr hj)
  intro a ha b hb hab
  exact getD_inj_of_nodup hnd
    (lt_of_lt_of_le (List.mem_range.mp ha) hk)
    (lt_of_lt_of_le (List.mem_range.mp hb) hk) hab

theorem mapGet_idxm_none {vs : List String} (hnd : vs.Nodup) {k j : Nat}
    (hjk : k ≤ j) (hj : j < vs.length) :
    mapGet (idxm vs k) (vs.getD j "") = none := by
  refine mapGet_map_of_not_mem _ _ _ _ ?_
  intro a ha hc
  have ha' : a < k := List.mem_range.mp ha
  have : a = j := getD_inj_of_nodup hnd (by omega) hj hc
  omega

theorem mapGet_lowm {vs : List String} (hnd : vs.Nodup) {k j : Nat}
    (hj : j < vs.length) :
    mapGet (lowm vs k) (vs.getD j "") = some (if j < k then j else 0) := by
  refine mapGet_map_of_mem _ _ _ ?_ j (List.mem_range.mpr hj)
  intro a ha b hb hab
  exact getD_inj_of_nodup hnd (List.mem_range.mp ha)
    (List.mem_range.mp hb) hab

theorem idxm_succ {vs : List String} {k : Nat} :
    idxm vs (k + 1) = idxm vs k ++ [(vs.getD k "", k)] := by
  simp [idxm, List.range_succ]

theorem mapSet_idxm {vs : List String} (hnd : vs.Nodup) {k : Nat}
    (hk : k < vs.length) :
    mapSet (idxm vs k) (vs.getD k "") k = idxm vs (k + 1) := by
  rw [mapSet_not_has_append
    (mapHas_false_of_none (mapGet_idxm_none hnd (le_refl k) hk)) k,
    idxm_succ]

theorem mapSet_lowm {vs : List String} (hnd : vs.Nodup) {k : Nat}
    (hk : k < vs.length) :
    mapSet (lowm vs (k + 1)) (vs.getD k "") 0 = lowm vs k := by
  have hinj : ∀ a ∈ List.range vs.length, ∀ b ∈ List.range vs.length,
      vs.getD a "" = vs.getD b "" → a = b := by
    intro a ha b hb hab
    exact getD_inj_of_nodup hnd (List.mem_range.mp ha)
      (List.mem_range.mp hb) hab
  have h1 := mapSet_map (List.range vs.length) (fun j => vs.getD j "")
    (fun j => if j < k + 1 then j else 0) hinj (List.nodup_range _)
    k (List.mem_range.mpr hk) 0
  have h2 : mapSet (lowm vs (k + 1)) (vs.getD k "") 0 =
      (List.range vs.length).map
        (fun j => (vs.getD j "",
          if j = k then 0 else if j < k + 1 then j else 0)) := h1
  rw [h2]
  have h3 : lowm vs k =
      (List.range vs.length).map
        (fun j => (vs.getD j "", if j < k then j else 0)) := rfl
  rw [h3]
  refine List.map_congr_left ?_
  intro j hj
  by_cases hjk : j = k
  · subst hjk
    simp
  · by_cases hlt : j < k
    · have : j < k + 1 := by omega
      simp [hjk, hlt, this]
    · have : ¬ j < k + 1 := by omega
      simp [hjk, hlt, this]

theorem lowm_len_eq_idxm {vs : List String} :
    lowm vs vs.length = idxm vs vs.length := by
  unfold lowm idxm
  refine List.map_congr_left ?_
  intro j hj
  simp [List.mem_range.mp hj]

theorem keys_idxm_len {vs : List String} :
    keys (idxm vs vs.length) = vs := by
  unfold idxm keys
  rw [List.map_map]
  refine List.ext_getElem (by simp) ?_
  intro i h1 h2
  simp only [List.getElem_map, List.getElem_range, Function.comp_apply]
  exact List.getD_eq_getElem vs "" h2

theorem take_succ_getD {vs : List String} {k : Nat} (hk : k < vs.length) :
    vs.take (k + 1) = vs.take k ++ [vs.getD k ""] := by
  rw [List.take_succ, List.getElem?_eq_getElem hk,
    List.getD_eq_getElem _ _ hk]
  rfl

theorem getD_not_mem_take {vs : List String} (hnd : vs.Nodup) {k : Nat}
    (hk : k < vs.length) : vs.getD k "" ∉ vs.take k := by
  have h1 : (vs.take (k + 1)).Nodup :=
    (List.take_sublist _ _).nodup hnd
  rw [take_succ_getD hk, List.nodup_append] at h1
  intro hc
  exact h1.2.2 hc (List.mem_singleton_self _)

theorem mapGet_initAdj (nodes : List (String × GraphNode)) (u : String)
    (hu : u ∈ keys nodes) :
    mapGet (nodes.foldl
      (fun adj p => mapSet adj p.1 ([] : List String)) []) u = some [] := by
  have h1 : mapHas (nodes.foldl
      (fun adj p => mapSet adj p.1 ([] : List String)) []) u = true := by
    rw [mapHas_initNodes]
    exact Or.inr hu
  obtain ⟨v, hv⟩ := mapGet_isSome_of_has h1
  have h2 := adjGet_initNodes nodes [] u
    (by intro x s hx; simp [mapGet] at hx)
  unfold adjGet at h2
  rw [hv] at h2
  simp only [Option.getD_some] at h2
  rw [hv, h2]

theorem mapGet_foldDirected (es : List GraphLink) :
    ∀ (acc : List (String × List String)) (u : String) (s : List String),
      mapGet acc u = some s →
      mapGet (es.foldl addDirectedEdge acc) u =
        some (s ++ (es.filter (fun e => e.source = u)).map
          (fun e => e.target)) := by
  induction es with
  | nil => intro acc u s hs; simpa using hs
  | cons e es ih =>
      intro acc u s hs
      rw [List.foldl_cons]
      by_cases hu : e.source = u
      · have hg : mapGet acc e.source = some s := by rw [hu]; exact hs
        have hstep : addDirectedEdge acc e =
            mapSet acc e.source (s ++ [e.target]) := by
          unfold addDirectedEdge
          rw [hg]
        have h2 : mapGet (addDirectedEdge acc e) u =
            some (s ++ [e.target]) := by
          rw [hstep, hu]
          exact mapGet_mapSet_self _ _ _
        rw [ih _ u (s ++ [e.target]) h2]
        simp [List.filter_cons, hu, List.append_assoc]
      · have hstep : mapGet (addDirectedEdge acc e) u = some s := by
          unfold addDirectedEdge
          cases hg : mapGet acc e.source with
          | none => exact hs
          | some list =>
              rw [mapGet_mapSet_ne _ _ (fun hc => hu hc.symm)]
              exact hs
        rw [ih _ u s hstep]
        simp [List.filter_cons, hu]

theorem filter_zip_not_mem :
    ∀ (vs ws : List String) (u : String), u ∉ vs →
      (vs.zip ws).filter (fun p => p.1 = u) = [] := by
  intro vs
  induction vs with
  | nil => intro ws u _; rfl
  | cons a vs ih =>
      intro ws u hu
      cases ws with
      | nil => rfl
      | cons b ws =>
          have ha : ¬ a = u := fun hc => hu (hc ▸ List.mem_cons_self _ _)
          simp only [List.zip_cons_cons, List.filter_cons]
          rw [if_neg (by simpa using ha)]
          exact ih ws u (fun hc => hu (List.mem_cons_of_mem _ hc))

theorem filter_zip_getD :
    ∀ (vs ws : List String), vs.Nodup → vs.length ≤ ws.length →
      ∀ i, i < vs.length →
      (vs.zip ws).filter (fun p => p.1 = vs.getD i "") =
        [(vs.getD i "", ws.getD i "")] := by
  intro vs
  induction vs with
  | nil => intro ws _ _ i hi; exact absurd hi (by simp)
  | cons a vs ih =>
      intro ws hnd hlen i hi
      cases ws with
      | nil => simp at hlen
      | cons b ws =>
          rw [List.nodup_cons] at hnd
          cases i with
          | zero =>
              simp only [List.getD_cons_zero, List.zip_cons_cons,
                List.filter_cons]
              rw [if_pos (by simp)]
              rw [filter_zip_not_mem vs ws a hnd.1]
          | succ i =>
              have hi' : i < vs.length := by simpa using Nat.lt_of_succ_lt_succ hi
              have ha : ¬ a = vs.getD i "" := by
                intro hc
                exact hnd.1 (hc ▸ getD_mem hi')
              simp only [List.getD_cons_succ, List.zip_cons_cons,
                List.filter_cons]
              rw [if_neg (by simpa using ha)]
              exact ih ws hnd.2 (by simpa using hlen) i hi'

theorem filter_map_mk (zl : List (String × String)) (u : String) :
    (zl.map (fun p =>
        ({ source := p.1, target := p.2 } : GraphLink))).filter
        (fun e => e.source = u) =
      (zl.filter (fun p => p.1 = u)).map
        (fun p => ({ source := p.1, target := p.2 } : GraphLink)) := by
  induction zl with
  | nil => rfl
  | cons p zl ih =>
      by_cases h : p.1 = u
      · simp [List.filter_cons, h, ih]
      · simp [List.filter_cons, h, ih]

theorem adjGet_cycle (g : NoteGraph) (vs : List String)
    (hkeys : keys g.nodes = vs) (hnd : vs.Nodup)
    (hedges : g.edges = cycleEdges vs) {i : Nat} (hi : i < vs.length) :
    adjGet (buildDirectedAdjacency g) (vs.getD i "") =
      [vs.getD ((i + 1) % vs.length) ""] := by
  have hmem : vs.getD i "" ∈ keys g.nodes := by
    rw [hkeys]; exact getD_mem hi
  have h0 := mapGet_initAdj g.nodes (vs.getD i "") hmem
  have h1 := mapGet_foldDirected g.edges _ (vs.getD i "") [] h0
  have hrlen : vs.length ≤ (vs.rotate 1).length := by
    rw [List.length_rotate]
  have h2 : (g.edges.filter
      (fun e => e.source = vs.getD i "")).map (fun e => e.target) =
      [(vs.rotate 1).getD i ""] := by
    rw [hedges]
    unfold cycleEdges
    rw [filter_map_mk, filter_zip_getD vs (vs.rotate 1) hnd hrlen i hi]
    rfl
  have h3 : (vs.rotate 1).getD i "" = vs.getD ((i + 1) % vs.length) "" := by
    have hi' : i < (vs.rotate 1).length := by
      rw [List.length_rotate]; exact hi
    rw [List.getD_eq_getElem _ _ hi', List.getElem_rotate]
    exact (List.getD_eq_getElem _ _ (Nat.mod_lt _ (by omega))).symm
  unfold buildDirectedAdjacency adjGet
  rw [h1, h2, h3]
  rfl

theorem popLoop_step {stack : List String} {v a : String}
    (hlast : stack.getLast? = some a) (hne : ¬ a = v)
    (comp : List String) :
    popLoop v stack.length stack comp =
      popLoop v (stack.length - 1) stack.dropLast (comp ++ [a]) := by
  cases hl : stack.length with
  | zero =>
      rw [List.length_eq_zero] at hl
      rw [hl] at hlast
      exact Option.noConfusion hlast
  | succ n =>
      simp [popLoop, hlast, hne]

theorem popLoop_head {v : String} :
    ∀ (l : List String), v ∉ l → ∀ comp,
      popLoop v (v :: l).length (v :: l) comp =
        ([], comp ++ (v :: l).reverse) := by
  intro l
  induction l using List.reverseRecOn with
  | nil =>
      intro _ comp
      simp [popLoop]
  | append_singleton l a ihl =>
      intro hv comp
      have ha : ¬ a = v := by
        intro h
        exact hv (h ▸ List.mem_append_right _ (List.mem_singleton_self _))
      have hlast : (v :: (l ++ [a])).getLast? = some a := by
        rw [show v :: (l ++ [a]) = (v :: l) ++ [a] from rfl]
        exact List.getLast?_concat _
      have hdrop : (v :: (l ++ [a])).dropLast = v :: l := by
        rw [show v :: (l ++ [a]) = (v :: l) ++ [a] from rfl]
        exact List.dropLast_concat
      have hlen : (v :: (l ++ [a])).length - 1 = (v :: l).length := by
        simp
      rw [popLoop_step hlast ha comp, hdrop, hlen]
      rw [ihl (fun hc => hv (List.mem_append_left _ hc)) (comp ++ [a])]
      simp

theorem popLoop_head_getD {vs : List String} (hnd : vs.Nodup)
    (hne : vs ≠ []) (comp : List String) :
    popLoop (vs.getD 0 "") vs.length vs comp = ([], comp ++ vs.reverse) := by
  cases vs with
  | nil => exact absurd rfl hne
  | cons v l =>
      rw [List.nodup_cons] at hnd
      rw [List.getD_cons_zero]
      exact popLoop_head l hnd.1 comp

theorem cycle_visit_chain {adj : List (String × List String)}
    {vs : List String} (hnd : vs.Nodup)
    (hadj : ∀ j, j < vs.length →
      adjGet adj (vs.getD j "") = [vs.getD ((j + 1) % vs.length) ""]) :
    ∀ (fuel k : Nat), 1 ≤ k → k < vs.length → vs.length - k ≤ fuel →
      visit adj fuel
        ⟨idxm vs k, idxm vs k, vs.take k, vs.take k, [], k⟩
        (vs.getD k "") =
      ⟨idxm vs vs.length, lowm vs k, vs, vs, [], vs.length⟩ := by
  intro fuel
  induction fuel with
  | zero => intro k h1 h2 h3; omega
  | succ f ih =>
      intro k h1 h2 h3
      have hstep : visit adj (f + 1)
          ⟨idxm vs k, idxm vs k, vs.take k, vs.take k, [], k⟩
          (vs.getD k "") =
          (fun st2 : TarjanState =>
            if mapGet st2.lowLink (vs.getD k "") =
                mapGet st2.indexMap (vs.getD k "") then
              { st2 with
                  stack := (popLoop (vs.getD k "")
                    st2.stack.length st2.stack []).1
                  onStack := st2.onStack.filter
                    (fun x => ¬ x ∈ (popLoop (vs.getD k "")
                      st2.stack.length st2.stack []).2)
                  components := st2.components ++
                    [(popLoop (vs.getD k "")
                      st2.stack.length st2.stack []).2] }
            else st2)
          ((adjGet adj (vs.getD k "")).foldl
            (tarjanStep (visit adj f) (vs.getD k ""))
            ⟨mapSet (idxm vs k) (vs.getD k "") k,
              mapSet (idxm vs k) (vs.getD k "") k,
              setAdd (vs.take k) (vs.getD k ""),
              vs.take k ++ [vs.getD k ""], [], k + 1⟩) := rfl
      have hsetadd : setAdd (vs.take k) (vs.getD k "") = vs.take (k + 1) := by
        unfold setAdd
        rw [if_neg (getD_not_mem_take hnd h2)]
        exact (take_succ_getD h2).symm
      have hfold : (adjGet adj (vs.getD k "")).foldl
          (tarjanStep (visit adj f) (vs.getD k ""))
          ⟨idxm vs (k + 1), idxm vs (k + 1), vs.take (k + 1),
            vs.take (k + 1), [], k + 1⟩ =
          ⟨idxm vs vs.length, lowm vs k, vs, vs, [], vs.length⟩ := by
        rw [hadj k h2, List.foldl_cons, List.foldl_nil]
        by_cases hk1 : k + 1 < vs.length
        · rw [Nat.mod_eq_of_lt hk1]
          have hget : mapGet (idxm vs (k + 1)) (vs.getD (k + 1) "") =
              none := mapGet_idxm_none hnd (le_refl _) hk1
          have hhas : mapHas (idxm vs (k + 1)) (vs.getD (k + 1) "") =
              false := mapHas_false_of_none hget
          have hrec := ih (k + 1) (by omega) hk1 (by omega)
          have hminval : mapSet (lowm vs (k + 1)) (vs.getD k "")
              (min ((mapGet (lowm vs (k + 1)) (vs.getD k "")).getD 0)
                ((mapGet (lowm vs (k + 1)) (vs.getD (k + 1) "")).getD 0)) =
              lowm vs k := by
            rw [mapGet_lowm hnd h2, mapGet_lowm hnd hk1]
            simp only [Option.getD_some]
            rw [if_pos (Nat.lt_succ_self k), if_neg (lt_irrefl (k + 1))]
            rw [Nat.min_zero]
            exact mapSet_lowm hnd h2
          simp only [tarjanStep]
          rw [if_pos hhas, hrec]
          simp only []
          rw [hminval]
        · have hk1' : k + 1 = vs.length := by omega
          have hmod : (k + 1) % vs.length = 0 := by
            rw [hk1']
            exact Nat.mod_self _
          rw [hmod]
          have hget0 : mapGet (idxm vs (k + 1)) (vs.getD 0 "") = some 0 :=
            mapGet_idxm hnd (by omega) (by omega)
          have hhas0 : mapHas (idxm vs (k + 1)) (vs.getD 0 "") = true :=
            mapHas_of_mapGet_eq_some hget0
          have hmem0 : vs.getD 0 "" ∈ vs.take (k + 1) := by
            rw [hk1', List.take_length]
            exact getD_mem (by omega)
          have hgetk : mapGet (idxm vs (k + 1)) (vs.getD k "") = some k :=
            mapGet_idxm hnd (Nat.lt_succ_self k) (by omega)
          have hminval2 : mapSet (idxm vs (k + 1)) (vs.getD k "")
              (min ((mapGet (idxm vs (k + 1)) (vs.getD k "")).getD 0)
                ((mapGet (idxm vs (k + 1)) (vs.getD 0 "")).getD 0)) =
              lowm vs k := by
            rw [hgetk, hget0]
            simp only [Option.getD_some, Nat.min_zero]
            rw [hk1', ← lowm_len_eq_idxm, ← hk1']
            exact mapSet_lowm hnd h2
          have hts : tarjanStep (visit adj f) (vs.getD k "")
              ⟨idxm vs (k + 1), idxm vs (k + 1), vs.take (k + 1),
                vs.take (k + 1), [], k + 1⟩ (vs.getD 0 "") =
              ⟨idxm vs (k + 1), lowm vs k, vs.take (k + 1),
                vs.take (k + 1), [], k + 1⟩ := by
            simp only [tarjanStep]
            rw [if_neg (by rw [hhas0]; simp), if_pos hmem0]
            rw [hminval2]
          rw [hts, hk1', List.take_length]
      rw [hstep, mapSet_idxm hnd h2, hsetadd,
        show vs.take k ++ [vs.getD k ""] = vs.take (k + 1) from
          (take_succ_getD h2).symm,
        hfold]
      have hlowk : mapGet (lowm vs k) (vs.getD k "") = some 0 := by
        rw [mapGet_lowm hnd h2, if_neg (lt_irrefl k)]
      have hidxk : mapGet (idxm vs vs.length) (vs.getD k "") = some k :=
        mapGet_idxm hnd h2 (le_refl _)
      simp only [hlowk, hidxk]
      rw [if_neg (by intro hc; injection hc with hc'; omega)]

theorem cycle_visit_top {adj : List (String × List String)}
    {vs : List String} (hnd : vs.Nodup) (hn : 2 ≤ vs.length)
    (hadj : ∀ j, j < vs.length →
      adjGet adj (vs.getD j "") = [vs.getD ((j + 1) % vs.length) ""]) :
    ∀ fuel, vs.length ≤ fuel →
      visit adj fuel ⟨[], [], [], [], [], 0⟩ (vs.getD 0 "") =
        ⟨idxm vs vs.length, lowm vs 1, [], [],
          [vs.reverse], vs.length⟩ := by
  intro fuel hfuel
  obtain ⟨f, rfl⟩ : ∃ f, fuel = f + 1 := ⟨fuel - 1, by omega⟩
  have h1len : 1 < vs.length := by omega
  have hstep : visit adj (f + 1) ⟨[], [], [], [], [], 0⟩
      (vs.getD 0 "") =
      (fun st2 : TarjanState =>
        if mapGet st2.lowLink (vs.getD 0 "") =
            mapGet st2.indexMap (vs.getD 0 "") then
          { st2 with
              stack := (popLoop (vs.getD 0 "")
                st2.stack.length st2.stack []).1
              onStack := st2.onStack.filter
                (fun x => ¬ x ∈ (popLoop (vs.getD 0 "")
                  st2.stack.length st2.stack []).2)
              components := st2.components ++
                [(popLoop (vs.getD 0 "")
                  st2.stack.length st2.stack []).2] }
        else st2)
      ((adjGet adj (vs.getD 0 "")).foldl
        (tarjanStep (visit adj f) (vs.getD 0 ""))
        ⟨mapSet [] (vs.getD 0 "") 0, mapSet [] (vs.getD 0 "") 0,
          setAdd [] (vs.getD 0 ""), [] ++ [vs.getD 0 ""], [], 0 + 1⟩) := rfl
  have htake1 : ([] : List String) ++ [vs.getD 0 ""] = vs.take 1 := by
    rw [take_succ_getD (show 0 < vs.length by omega)]
    rfl
  have hidxm1 : mapSet ([] : List (String × Nat)) (vs.getD 0 "") 0 =
      idxm vs 1 := rfl
  have hsetadd1 : setAdd [] (vs.getD 0 "") = vs.take 1 := by
    rw [← htake1]
    rfl
  rw [hstep, hidxm1, hsetadd1, htake1]
  rw [hadj 0 (by omega), Nat.mod_eq_of_lt h1len]
  rw [List.foldl_cons, List.foldl_nil]
  have hget : mapGet (idxm vs 1) (vs.getD 1 "") = none :=
    mapGet_idxm_none hnd (le_refl _) h1len
  have hhas : mapHas (idxm vs 1) (vs.getD 1 "") = false :=
    mapHas_false_of_none hget
  have hrec := cycle_visit_chain hnd hadj f 1 (le_refl _) h1len (by omega)
  have hlow0 : mapGet (lowm vs 1) (vs.getD 0 "") = some 0 := by
    rw [mapGet_lowm hnd (show 0 < vs.length by omega)]
    simp
  have hlow1 : mapGet (lowm vs 1) (vs.getD 1 "") = some 0 := by
    rw [mapGet_lowm hnd h1len, if_neg (lt_irrefl 1)]
  have hminval : mapSet (lowm vs 1) (vs.getD 0 "")
      (min ((mapGet (lowm vs 1) (vs.getD 0 "")).getD 0)
        ((mapGet (lowm vs 1) (vs.getD 1 "")).getD 0)) = lowm vs 1 := by
    rw [hlow0, hlow1]
    simp only [Option.getD_some, Nat.min_self]
    exact mapSet_same hlow0
  have hts : tarjanStep (visit adj f) (vs.getD 0 "")
      ⟨idxm vs 1, idxm vs 1, vs.take 1, vs.take 1, [], 1⟩
      (vs.getD 1 "") =
      ⟨idxm vs vs.length, lowm vs 1, vs, vs, [], vs.length⟩ := by
    simp only [tarjanStep]
    rw [if_pos hhas, hrec]
    simp only []
    rw [hminval]
  rw [hts]
  have hidx0 : mapGet (idxm vs vs.length) (vs.getD 0 "") = some 0 :=
    mapGet_idxm hnd (by omega) (le_refl _)
  simp only [hlow0, hidx0]
  have hpop : popLoop (vs.getD 0 "") vs.length vs [] =
      ([], [] ++ vs.reverse) :=
    popLoop_head_getD hnd (by intro hc; rw [hc] at hn; simp at hn) []
  have hfilter : vs.filter (fun x => ¬ x ∈ vs.reverse) = [] := by
    rw [List.filter_eq_nil_iff]
    intro a ha
    simp [List.mem_reverse, ha]
  rw [hpop]
  simp only [List.nil_append]
  rw [hfilter]
  simp

theorem sccSkip {adj : List (String × List String)} {fuel : Nat} :
    ∀ (ps : List (String × GraphNode)) (st : TarjanState),
      (∀ p ∈ ps, mapHas st.indexMap p.1 = true) →
      ps.foldl (sccOuterStep adj fuel) st = st := by
  intro ps
  induction ps with
  | nil => intro st _; rfl
  | cons p ps ih =>
      intro st h
      rw [List.foldl_cons]
      have hstep : sccOuterStep adj fuel st p = st := by
        unfold sccOuterStep
        rw [if_neg (by rw [h p (List.mem_cons_self _ _)]; simp)]
      rw [hstep]
      exact ih st (fun q hq => h q (List.mem_cons_of_mem _ hq))

/-- On a graph whose edges form a single directed cycle through all of
its nodes (at least two of them), Tarjan reports exactly one strongly
connected component. -/
theorem connectedComponents_cycle (g : NoteGraph) (vs : List String)
    (hkeys : keys g.nodes = vs) (hnd : vs.Nodup) (hn : 2 ≤ vs.length)
    (hedges : g.edges = cycleEdges vs) :
    connectedComponents g = 1 := by
  have hadj : ∀ j, j < vs.length →
      adjGet (buildDirectedAdjacency g) (vs.getD j "") =
        [vs.getD ((j + 1) % vs.length) ""] :=
    fun j hj => adjGet_cycle g vs hkeys hnd hedges hj
  cases hng : g.nodes with
  | nil =>
      exfalso
      rw [hng] at hkeys
      rw [← hkeys] at hn
      simp [keys] at hn
  | cons p rest =>
      have hkeys' : vs = p.1 :: keys rest := by
        rw [← hkeys, hng]
        rfl
      have hp1 : p.1 = vs.getD 0 "" := by
        rw [hkeys']
        rfl
      have hvslen : vs.length = (p :: rest).length := by
        rw [hkeys']
        simp [keys]
      have hrun : ∀ fuel, vs.length ≤ fuel →
          ((p :: rest).foldl
            (sccOuterStep (buildDirectedAdjacency g) fuel)
            ⟨[], [], [], [], [], 0⟩).components = [vs.reverse] := by
        intro fuel hf
        rw [List.foldl_cons]
        have hstep1 : sccOuterStep (buildDirectedAdjacency g) fuel
            ⟨[], [], [], [], [], 0⟩ p =
            visit (buildDirectedAdjacency g) fuel
              ⟨[], [], [], [], [], 0⟩ p.1 := rfl
        rw [hstep1, hp1]
        rw [cycle_visit_top hnd hn hadj fuel hf]
        have hskip : ∀ q ∈ rest,
            mapHas (⟨idxm vs vs.length, lowm vs 1, [], [],
              [vs.reverse], vs.length⟩ : TarjanState).indexMap q.1 =
              true := by
          intro q hq
          show mapHas (idxm vs vs.length) q.1 = true
          rw [mapHas_iff_mem_keys, keys_idxm_len, hkeys']
          exact List.mem_cons_of_mem _ (List.mem_map_of_mem Prod.fst hq)
        rw [sccSkip rest _ hskip]
      have hbound : vs.length ≤ (p :: rest).length + g.edges.length + 1 := by
        rw [← hvslen]
        omega
      unfold connectedComponents findStronglyConnectedComponents
      rw [hng]
      rw [hrun ((p :: rest).length + g.edges.length + 1) hbound]
      rfl

/-- C6: the `connectedComponents` figure of `calculateGraphAnalytics`
(the number of components returned by the Tarjan
`findStronglyConnectedComponents` over the directed adjacency built from
`edges`) matches the SCC structure of the directed graph: (a) on a graph
with duplicate-free node keys, edge endpoints inside the node map, and no
directed cycle along `edges`, it equals the number of nodes — every node
is a singleton component; (b) on a graph whose edge list is a single
directed cycle through all of its `n ≥ 2` nodes, it equals 1. -/
theorem connectedComponents_spec :
    (∀ g : NoteGraph, (keys g.nodes).Nodup →
      (∀ e ∈ g.edges, e.source ∈ keys g.nodes) →
      (∀ e ∈ g.edges, e.target ∈ keys g.nodes) →
      (∀ u p, isEdgePath g p u u → p.length < 2) →
      connectedComponents g = g.nodes.length) ∧
    (∀ (g : NoteGraph) (vs : List String), keys g.nodes = vs →
      vs.Nodup → 2 ≤ vs.length → g.edges = cycleEdges vs →
      connectedComponents g = 1) :=
  ⟨connectedComponents_acyclic, connectedComponents_cycle⟩

/-- Witness for C6 at two concrete graphs: the acyclic single-edge graph
`a → b` has two components, and the two-node cycle `a → b → a` has one. -/
theorem connectedComponents_spec_witness :
    connectedComponents
        ⟨[("a", ⟨"a", "a", 1, 0, 1⟩), ("b", ⟨"b", "b", 1, 1, 0⟩)],
          [⟨"a", "b"⟩], [], []⟩ = 2 ∧
    connectedComponents
        ⟨[("a", ⟨"a", "a", 2, 1, 1⟩), ("b", ⟨"b", "b", 2, 1, 1⟩)],
          cycleEdges ["a", "b"], [], []⟩ = 1 := by
  constructor
  · refine connectedComponents_spec.1
      ⟨[("a", ⟨"a", "a", 1, 0, 1⟩), ("b", ⟨"b", "b", 1, 1, 0⟩)],
        [⟨"a", "b"⟩], [], []⟩
      (by decide) (by decide) (by decide) ?_
    intro u p hp
    obtain ⟨h1, h2, h3⟩ := hp
    match p, h1, h2, h3 with
    | [x], _, _, _ => simp
    | x :: y :: r, h1, h2, h3 =>
        obtain ⟨⟨e, he, hsx, hty⟩, h3'⟩ := List.chain'_cons.mp h3
        obtain rfl : e = ⟨"a", "b"⟩ := by simpa using he
        obtain rfl : x = "a" := hsx.symm
        obtain rfl : y = "b" := hty.symm
        match r, h1, h2, h3' with
        | [], h1, h2, _ =>
            obtain rfl : u = "a" := by simpa using h1.symm
            exact absurd h2 (by decide)
        | z :: r', _, _, h3' =>
            obtain ⟨⟨e', he', hs', -⟩, -⟩ := List.chain'_cons.mp h3'
            obtain rfl : e' = ⟨"a", "b"⟩ := by simpa using he'
            exact absurd hs'.symm (by decide)
  · exact connectedComponents_spec.2
      ⟨[("a", ⟨"a", "a", 2, 1, 1⟩), ("b", ⟨"b", "b", 2, 1, 1⟩)],
        cycleEdges ["a", "b"], [], []⟩
      ["a", "b"] rfl (by decide) (by decide) rfl

end Papyr
